import Mathlib

/-!
Verification of the votewarmap region-resolution and vote-aggregation core.

The definitions below are shallow embeddings of the TypeScript and SQL
sources of the repository:
  * `src/lib/server/regions.ts` (region resolver),
  * `src/app/api/votes/topics/route.ts` (slow-path aggregation, file
    recovered as `src/unnamed/part_002`) and the SQL function
    `get_region_vote_stats` (fast-path aggregation),
  * `src/app/api/schools/search/route.ts` (vote submission route),
  * `src/supabase/migrations/20260218_extend_users_and_guest_merge.sql`
    (`merge_guest_votes_to_user`),
  * `src/scripts/import-universities.ts` (bulk parent reconciliation).

The database is modelled as explicit lists of rows; the partial unique
indexes and check constraints of the `votes` table are modelled inside the
insert primitive.  JavaScript `??` is modelled by `Option.orElse` (it fires
on `null`/`undefined` only, in particular not on the empty string), and
JavaScript truthiness tests on strings (`!value`, `filter(Boolean)`) are
modelled by comparison with `""`.
-/

namespace VoteWar

/-! ### Region resolver (`src/lib/server/regions.ts`) -/

/-- One feature of the municipalities gazetteer file
(`public/data/skorea_municipalities_geo_simple.json`): `properties.code`
and `properties.name`, both already coerced to strings. -/
structure Muni where
  code : String
  name : String
deriving DecidableEq, Repr

/-- A cached gazetteer entry: `{ code, name, norm: normalizeKorean(name) }`. -/
structure GazEntry where
  code : String
  name : String
  norm : String
deriving DecidableEq, Repr

/-- Whitespace split over a character list (JS `split(/\s+/)` up to empty
tokens, which every caller immediately filters away).  Structural, so that
the kernel can evaluate it, unlike `String.split`. -/
def splitWsAux : List Char → List Char → List String
  | [], acc => [String.mk acc.reverse]
  | c :: rest, acc =>
    if c.isWhitespace then String.mk acc.reverse :: splitWsAux rest []
    else splitWsAux rest (c :: acc)

/-- Splits a string on whitespace characters. -/
def splitWs (s : String) : List String :=
  splitWsAux s.toList []

/-- Removes leading and trailing whitespace (JS `trim` / SQL `btrim`). -/
def strTrim (s : String) : String :=
  String.mk (((s.toList.dropWhile Char.isWhitespace).reverse.dropWhile
    Char.isWhitespace).reverse)

/-- JS `String.prototype.endsWith`. -/
def strEndsWith (s post : String) : Bool :=
  post.toList.isSuffixOf s.toList

/-- JS `String.prototype.startsWith`. -/
def strStartsWith (s preStr : String) : Bool :=
  preStr.toList.isPrefixOf s.toList

/-- Scans for a `)` that occurs before any newline (the JS regex
`\(.*?\)` cannot match across a newline). -/
def hasCloseBeforeNewline : List Char → Bool
  | [] => false
  | ')' :: _ => true
  | '\n' :: _ => false
  | _ :: rest => hasCloseBeforeNewline rest

/-- Drops characters up to and including the first `)`. -/
def dropThroughClose : List Char → List Char
  | [] => []
  | ')' :: rest => rest
  | _ :: rest => dropThroughClose rest

/-- Fuel-indexed worker for `stripParens`; the fuel is the length of the
input, which bounds the number of steps. -/
def stripParensFuel : Nat → List Char → List Char
  | 0, l => l
  | _ + 1, [] => []
  | n + 1, '(' :: rest =>
    if hasCloseBeforeNewline rest then stripParensFuel n (dropThroughClose rest)
    else '(' :: stripParensFuel n rest
  | n + 1, c :: rest => c :: stripParensFuel n rest

/-- Models `value.replace(/\(.*?\)/g, '')`: removes every non-greedy
parenthesized group; an unmatched `(` is kept. -/
def stripParens (l : List Char) : List Char :=
  stripParensFuel l.length l

/-- Embeds `normalizeKorean` from `regions.ts`: strips parenthesized groups, then
removes all whitespace (after which the final `.trim()` is a no-op). -/
def normalizeKorean (value : String) : String :=
  String.mk ((stripParens value.toList).filter (fun c => !c.isWhitespace))

/-- Embeds `SIDO_CODE_MAP` from `regions.ts`. -/
def SIDO_CODE_MAP : String → Option String
  | "서울" => some "11"
  | "서울특별시" => some "11"
  | "부산" => some "21"
  | "부산광역시" => some "21"
  | "대구" => some "22"
  | "대구광역시" => some "22"
  | "인천" => some "23"
  | "인천광역시" => some "23"
  | "광주" => some "24"
  | "광주광역시" => some "24"
  | "대전" => some "25"
  | "대전광역시" => some "25"
  | "울산" => some "26"
  | "울산광역시" => some "26"
  | "세종" => some "29"
  | "세종특별자치시" => some "29"
  | "경기" => some "31"
  | "경기도" => some "31"
  | "강원" => some "32"
  | "강원도" => some "32"
  | "강원특별자치도" => some "32"
  | "충북" => some "33"
  | "충청북도" => some "33"
  | "충남" => some "34"
  | "충청남도" => some "34"
  | "전북" => some "35"
  | "전라북도" => some "35"
  | "전북특별자치도" => some "35"
  | "전남" => some "36"
  | "전라남도" => some "36"
  | "경북" => some "37"
  | "경상북도" => some "37"
  | "경남" => some "38"
  | "경상남도" => some "38"
  | "제주" => some "39"
  | "제주도" => some "39"
  | "제주특별자치도" => some "39"
  | _ => none

/-- Embeds `resolveSidoCode` from `regions.ts`. -/
def resolveSidoCode (sidoName : Option String) : Option String :=
  match sidoName with
  | none => none
  | some n => if n = "" then none else SIDO_CODE_MAP (normalizeKorean n)

/-- Embeds `SIGUNGU_ALIAS_MAP` from `regions.ts`: keyed by the normalized
candidate, giving the list of alias names to try as well. -/
def SIGUNGU_ALIAS_MAP : String → List String
  | "미추홀구" => ["남구"]
  | "인천미추홀구" => ["남구", "인천남구"]
  | "인천남구" => ["남구", "미추홀구"]
  | _ => []

/-- Embeds `expandSigunguAliases` from `regions.ts`. -/
def expandSigunguAliases (candidate : String) : List String :=
  let norm := normalizeKorean candidate
  norm :: (SIGUNGU_ALIAS_MAP norm).map normalizeKorean

/-- Embeds `readMunicipalities` from `regions.ts`, with the parsed gazetteer file
supplied as input: maps each feature to `{code, name, norm}` and keeps the
entries whose code and name are truthy (non-empty). -/
def readMunicipalities (raw : List Muni) : List GazEntry :=
  (raw.map (fun m => GazEntry.mk m.code m.name (normalizeKorean m.name))).filter
    (fun e => e.code != "" && e.name != "")

/-- Adds `x` to `l` unless already present (JS `Set` insertion order). -/
def insertUniq (l : List String) (x : String) : List String :=
  if x ∈ l then l else l ++ [x]

/-- Embeds `extractSigunguCandidates` from `regions.ts`: tokenize the address on
whitespace; the 2nd token is a candidate, and the 2nd+3rd concatenation is
added when the 3rd token ends in 구 (with a redundant second rule further
requiring the 2nd token to end in 군 or 시). -/
def extractSigunguCandidates (address : Option String) : List String :=
  match address with
  | none => []
  | some a =>
    if a = "" then []
    else
      let tokens := ((splitWs a).map strTrim).filter (fun t => t != "")
      if tokens.length < 2 then []
      else
        let second := tokens.getD 1 ""
        let third := tokens.getD 2 ""
        let c₁ : List String := if second != "" then [second] else []
        let c₂ : List String :=
          if second != "" && third != "" && strEndsWith third "구" then [second ++ third]
          else []
        let c₃ : List String :=
          if second != "" && third != "" && (strEndsWith second "군" || strEndsWith second "시") &&
              strEndsWith third "구" then [second ++ third]
          else []
        (c₁ ++ c₂ ++ c₃).foldl insertUniq []

/-- The arguments object of `resolveSigunguCode`. -/
structure SigunguQuery where
  sidoCode : Option String
  sigunguName : Option String
  address : Option String
deriving DecidableEq, Repr

/-- Inner loop of `resolveSigunguCode` over one candidate's expanded alias
list: exact normalized match first, then the suffix-containment fallback. -/
def matchExpanded (pool : List GazEntry) : List String → Option GazEntry
  | [] => none
  | e :: rest =>
    match pool.find? (fun item => item.norm == e) with
    | some hit => some hit
    | none =>
      match pool.find? (fun item => strEndsWith item.norm e || strEndsWith e item.norm) with
      | some hit => some hit
      | none => matchExpanded pool rest

/-- Outer loop of `resolveSigunguCode` over the candidate list. -/
def matchCandidates (pool : List GazEntry) : List String → Option GazEntry
  | [] => none
  | c :: rest =>
    match matchExpanded pool (expandSigunguAliases c) with
    | some hit => some hit
    | none => matchCandidates pool rest

/-- Embeds `resolveSigunguCode` from `regions.ts` (the gazetteer is passed in
place of the process-wide cache).  Returns `(sigunguCode, sigunguName)`. -/
def resolveSigunguCode (raw : List Muni) (args : SigunguQuery) :
    Option String × Option String :=
  let pool := (readMunicipalities raw).filter (fun item =>
    match args.sidoCode with
    | none => true
    | some sc => sc == "" || strStartsWith item.code sc)
  let nameCand : List String :=
    match args.sigunguName with
    | none => []
    | some n => if n = "" then [] else [n]
  let candidates :=
    ((nameCand ++ extractSigunguCandidates args.address).map normalizeKorean).filter
      (fun s => s != "")
  if candidates.isEmpty then (none, args.sigunguName)
  else
    match matchCandidates pool candidates with
    | some hit => (some hit.code, some hit.name)
    | none =>
      (none,
        match args.sigunguName with
        | some n => some n
        | none => candidates.head?)

/-- A gazetteer as the claim C6 hypothesizes it: municipality `23030` is
named 미추홀구. -/
def gazMichuhol : List Muni := [Muni.mk "23030" "미추홀구"]

/-- The gazetteer as the bundled dataset actually names the entry:
municipality `23030` carries the pre-rename name 남구. -/
def gazNamgu : List Muni := [Muni.mk "23030" "남구"]

/-- Claim C6's query: province code of 인천, no explicit municipality
name, an address starting `인천 남구`. -/
def queryNamguAddr : SigunguQuery :=
  SigunguQuery.mk (resolveSidoCode (some "인천")) none (some "인천 남구 용현동")

/-- The converse query: an address carrying the post-rename name. -/
def queryMichuholAddr : SigunguQuery :=
  SigunguQuery.mk (resolveSidoCode (some "인천")) none (some "인천 미추홀구 용현동")

/-! ### Region aggregation engine

Slow path: `buildStatsFromVoteRows` from the region-stats route
(`src/unnamed/part_002`).  Fast path: the SQL function
`get_region_vote_stats` from `20260218_create_vote_domain.sql`. -/

/-- The per-region winner marker. -/
inductive Winner
  | A
  | B
  | TIE
deriving DecidableEq, Repr

/-- One per-region aggregate: `{ total, countA, countB, winner }`. -/
structure RegionStat where
  total : Nat
  countA : Nat
  countB : Nat
  winner : Winner
deriving DecidableEq, Repr

/-- The `school` relation embedded in a vote row as returned by the
store's query layer: absent, a single record, or an array of records. -/
inductive SchoolLink
  | noSchool
  | oneSchool (sido : Option String) (sigungu : Option String)
  | manySchools (items : List (Option String × Option String))
deriving DecidableEq, Repr

/-- A vote row as selected by `fetchAllVotesByTopic`:
`option_key, sido_code, sigungu_code, school(sido_code, sigungu_code)`. -/
structure StatsVoteRow where
  option_key : String
  sido_code : Option String
  sigungu_code : Option String
  school : SchoolLink
deriving DecidableEq, Repr

/-- The aggregation granularity (`level` query parameter / `p_level`). -/
inductive RegionLevel
  | sido
  | sigungu
deriving DecidableEq, Repr

/-- Embeds `normalizeCode` from the stats route: `null`/`undefined`/`""` give
`null`; otherwise the trimmed value, or `null` when it trims to empty. -/
def normalizeCode : Option String → Option String
  | none => none
  | some v =>
    if v = "" then none
    else if strTrim v = "" then none
    else some (strTrim v)

/-- Embeds `resolveSchoolCode` from the stats route: unwraps the one-or-array
shape of the linked school (`school[0] ?? null` for the array case). -/
def resolveSchoolCode : SchoolLink → Option (Option String × Option String)
  | .noSchool => none
  | .oneSchool s g => some (s, g)
  | .manySchools items => items.head?

/-- The vote row's own denormalized code for the selected level. -/
def directCode (level : RegionLevel) (row : StatsVoteRow) : Option String :=
  match level with
  | .sido => row.sido_code
  | .sigungu => row.sigungu_code

/-- The linked school's code for the selected level
(`linkedSchool?.sido_code ?? null` and the sigungu analogue). -/
def linkedSchoolCode (level : RegionLevel) (row : StatsVoteRow) : Option String :=
  match resolveSchoolCode row.school with
  | none => none
  | some sg =>
    match level with
    | .sido => sg.1
    | .sigungu => sg.2

/-- The region code the slow path files a row under:
`row.code ?? linkedSchool?.code ?? null` passed through `normalizeCode`
(the JS `??` falls through only on `null`, not on the empty string). -/
def slowRegionCode (level : RegionLevel) (row : StatsVoteRow) : Option String :=
  normalizeCode ((directCode level row).orElse (fun _ => linkedSchoolCode level row))

/-- The winner comparison shared by both paths: strictly greater count
wins, equality is `TIE`. -/
def winnerOf (ca cb : Nat) : Winner :=
  if cb < ca then .A
  else if ca < cb then .B
  else .TIE

/-- The zero aggregate used when a region is first seen
(`{ total: 0, countA: 0, countB: 0, winner: 'TIE' }`). -/
def emptyStat : RegionStat := ⟨0, 0, 0, .TIE⟩

/-- One `rows.forEach` iteration of `buildStatsFromVoteRows`: resolve the
row's region code, skip the row when it is null, otherwise bump the
per-region aggregate and recompute its winner. -/
def slowStep (level : RegionLevel) (optA optB : String)
    (acc : String → Option RegionStat) (row : StatsVoteRow) :
    String → Option RegionStat :=
  match slowRegionCode level row with
  | none => acc
  | some code =>
    let current := (acc code).getD emptyStat
    let nextCountA := current.countA + (if row.option_key = optA then 1 else 0)
    let nextCountB := current.countB + (if row.option_key = optB then 1 else 0)
    let nextTotal := current.total + 1
    fun c =>
      if c = code then some ⟨nextTotal, nextCountA, nextCountB, winnerOf nextCountA nextCountB⟩
      else acc c

/-- Embeds `buildStatsFromVoteRows` from the stats route: folds the topic's vote
rows (in creation order) into a per-region-code map.  `optA`/`optB` are
the topic's option keys at positions 1 and 2. -/
def buildStatsFromVoteRows (rows : List StatsVoteRow) (level : RegionLevel)
    (optA optB : String) : String → Option RegionStat :=
  rows.foldl (slowStep level optA optB) (fun _ => none)

/-- SQL `nullif(code, '')`: only the exact empty string becomes null — no
trimming, and the linked school is never consulted. -/
def nullifEmpty : Option String → Option String
  | none => none
  | some v => if v = "" then none else some v

/-- The region code the fast path files a row under
(`nullif(v.sigungu_code, '')` / `nullif(v.sido_code, '')`). -/
def fastRegionCode (level : RegionLevel) (row : StatsVoteRow) : Option String :=
  nullifEmpty (directCode level row)

/-- The `position` obtained by joining the vote to `vote_options` on its
option key, for a topic whose options are exactly `optA` at position 1 and
`optB` at position 2 (guaranteed by the table's primary key and its
`unique (topic_id, position)` constraint); a key matching neither is
dropped by the inner join. -/
def positionOf (optA optB : String) (row : StatsVoteRow) : Option Nat :=
  if row.option_key = optA then some 1
  else if row.option_key = optB then some 2
  else none

/-- The SQL function `get_region_vote_stats`, read at one region code:
`scoped` is the join of the topic's votes with their option positions,
and the aggregate for `code` exists exactly when some scoped row carries
it, with `count(*)` and the two positional sums. -/
def get_region_vote_stats (rows : List StatsVoteRow) (level : RegionLevel)
    (optA optB : String) (code : String) : Option RegionStat :=
  let scopedRows := rows.filterMap
    (fun r => (positionOf optA optB r).map (fun p => (fastRegionCode level r, p)))
  let total := scopedRows.countP (fun x => decide (x.1 = some code))
  let ca := scopedRows.countP (fun x => decide (x.1 = some code) && decide (x.2 = 1))
  let cb := scopedRows.countP (fun x => decide (x.1 = some code) && decide (x.2 = 2))
  if total = 0 then none else some ⟨total, ca, cb, winnerOf ca cb⟩

/-- Reference shape shared by the two paths: counts over the rows filed
under `code` by a given region-key function. -/
def statsSpec (keyFn : StatsVoteRow → Option String) (optA optB : String)
    (rows : List StatsVoteRow) (code : String) : Option RegionStat :=
  let total := rows.countP (fun r => decide (keyFn r = some code))
  let ca := rows.countP (fun r => decide (keyFn r = some code) && decide (r.option_key = optA))
  let cb := rows.countP (fun r => decide (keyFn r = some code) && decide (r.option_key = optB))
  if total = 0 then none else some ⟨total, ca, cb, winnerOf ca cb⟩

/-- C2's counterexample row: no denormalized codes of its own, but a
linked school with usable codes. -/
def rowSchoolOnly : StatsVoteRow :=
  StatsVoteRow.mk "a" none none (SchoolLink.oneSchool (some "11") (some "11030"))

/-- C7's counterexample row: empty-string denormalized codes and a linked
school with usable codes. -/
def rowEmptyDirect : StatsVoteRow :=
  StatsVoteRow.mk "a" (some "") (some "") (SchoolLink.oneSchool (some "11") (some "11030"))

/-- Two rows whose own denormalized codes are present and trimmed, used
to witness the path-agreement theorem. -/
def demoAggRows : List StatsVoteRow :=
  [StatsVoteRow.mk "a" (some "11") (some "11030") SchoolLink.noSchool,
   StatsVoteRow.mk "b" (some "11") (some "11030") SchoolLink.noSchool]

/-! ### Vote ledger and identity guard
(`POST` of `src/app/api/schools/search/route.ts`, second document: the
vote submission handler, and the `votes` table constraints of
`20260218_create_vote_domain.sql`). -/

/-- ASCII lowercasing (JS `toLowerCase` on the ASCII range). -/
def strToLower (s : String) : String :=
  String.mk (s.toList.map Char.toLower)

/-- A stored vote row, restricted to the fields the ledger claims read:
identity, topic, option and the merge marker. -/
structure VoteRec where
  id : Nat
  topic_id : String
  option_key : String
  user_id : Option String
  guest_token : Option String
  merged_from_guest : Bool
deriving DecidableEq, Repr

/-- A `vote_options` row. -/
structure VoteOptionRec where
  topic_id : String
  option_key : String
  position : Nat
deriving DecidableEq, Repr

/-- The resolved caller (`resolveUserFromAuthorizationHeader` result). -/
structure AuthUser where
  id : String
  email : Option String
deriving DecidableEq, Repr

/-- The request body fields the ledger reads; `profileGiven` is
`body.profile !== undefined` (the school-ensure and demographic fields it
carries are not read by any ledger claim). -/
structure SubmitReq where
  topicId : String
  optionKey : String
  guestToken : Option String
  profileGiven : Bool
deriving DecidableEq, Repr

/-- Embeds `ADMIN_UNLIMITED_VOTE_EMAILS` from the route. -/
def ADMIN_UNLIMITED_VOTE_EMAILS : List String := ["skynkm0307@gmail.com"]

/-- Models `isUnlimitedAdmin`: the caller is authenticated and its lowercased
email is on the allow-list. -/
def isUnlimitedAdminOf (user : Option AuthUser) : Bool :=
  match user with
  | none => false
  | some au =>
    match au.email with
    | none => false
    | some e => ADMIN_UNLIMITED_VOTE_EMAILS.contains (strToLower e)

/-- The route's typed outcomes: 201 created, the 400s (missing identity,
unknown option, missing profile), the 409 duplicate-vote conflict, and an
opaque 500. -/
inductive SubmitOutcome
  | created (voteId : Nat)
  | invalidIdentity
  | invalidOption
  | duplicateVote
  | missingProfile
  | storeError
deriving DecidableEq, Repr

/-- Constraint violations the store can answer an insert with:
`23505` from a unique index, or a check-constraint violation. -/
inductive InsertErr
  | uniqueViolation
  | checkViolation
deriving DecidableEq, Repr

/-- The pre-check query for an authenticated voter
(`select id from votes where topic_id = ? and user_id = ?`). -/
def hasUserVote (votes : List VoteRec) (topic uid : String) : Bool :=
  votes.any (fun v => decide (v.topic_id = topic ∧ v.user_id = some uid))

/-- The pre-check query for a guest voter. -/
def hasGuestVote (votes : List VoteRec) (topic tok : String) : Bool :=
  votes.any (fun v => decide (v.topic_id = topic ∧ v.guest_token = some tok))

/-- Models `insert into votes`: enforces `votes_identity_check` (exactly one of
user id and guest token) and the partial unique indexes
`votes_topic_user_uidx` / `votes_topic_guest_uidx` (`23505`). -/
def dbInsertVote (votes : List VoteRec) (v : VoteRec) :
    Except InsertErr (List VoteRec) :=
  match v.user_id, v.guest_token with
  | some _, some _ => .error .checkViolation
  | none, none => .error .checkViolation
  | some uid, none =>
    if hasUserVote votes v.topic_id uid then .error .uniqueViolation
    else .ok (votes ++ [v])
  | none, some tok =>
    if hasGuestVote votes v.topic_id tok then .error .uniqueViolation
    else .ok (votes ++ [v])

/-- The vote-submission `POST` handler over an explicit ledger state.
`storedProfileOk` stands for "the user row has `birth_year`, `gender` and
`school_id`, and that school row exists"; `newId` is the generated row id
and `adminToken` the generated random suffix of the allow-list bypass
token.  The school ensure and demographic writes are elided: no ledger
claim reads them, and they do not touch the `votes` table. -/
def submitVote (options : List VoteOptionRec) (votes : List VoteRec)
    (user : Option AuthUser) (req : SubmitReq) (storedProfileOk : Bool)
    (newId : Nat) (adminToken : String) : SubmitOutcome × List VoteRec :=
  let voterUserId := user.map (fun au => au.id)
  let isUnlimitedAdmin := isUnlimitedAdminOf user
  let guestToken : Option String :=
    match voterUserId with
    | some _ => none
    | none => req.guestToken
  if voterUserId.isNone && guestToken.isNone then (.invalidIdentity, votes)
  else if (options.find? (fun o =>
      decide (o.topic_id = req.topicId ∧ o.option_key = req.optionKey))).isNone then
    (.invalidOption, votes)
  else
    let dup :=
      match voterUserId with
      | some uid => if isUnlimitedAdmin then false else hasUserVote votes req.topicId uid
      | none =>
        match guestToken with
        | some tok => hasGuestVote votes req.topicId tok
        | none => false
    if dup then (.duplicateVote, votes)
    else if !req.profileGiven && voterUserId.isNone then (.missingProfile, votes)
    else if !req.profileGiven && !storedProfileOk then (.missingProfile, votes)
    else
      let insertUserId := if isUnlimitedAdmin then none else voterUserId
      let insertGuestToken :=
        if isUnlimitedAdmin then
          some ("admin-" ++ (voterUserId.getD "") ++ "-" ++ adminToken)
        else guestToken
      let row : VoteRec :=
        ⟨newId, req.topicId, req.optionKey, insertUserId, insertGuestToken, false⟩
      match dbInsertVote votes row with
      | .ok votes₂ => (.created newId, votes₂)
      | .error .uniqueViolation => (.duplicateVote, votes)
      | .error .checkViolation => (.storeError, votes)

/-- A fixed identity as claim C1 speaks of one: a non-null user id or a
non-null guest token. -/
inductive VoterIdentity
  | userId (uid : String)
  | guestTok (tok : String)
deriving DecidableEq, Repr

/-- The identity a request resolves to, mirroring the route's
`voterUserId` / `guestToken` derivation. -/
def requestIdentity (user : Option AuthUser) (req : SubmitReq) :
    Option VoterIdentity :=
  match user with
  | some au => some (.userId au.id)
  | none =>
    match req.guestToken with
    | some g => some (.guestTok g)
    | none => none

/-- Whether a stored row belongs to the identity. -/
def matchesIdentity (ident : VoterIdentity) (v : VoteRec) : Bool :=
  match ident with
  | .userId uid => decide (v.user_id = some uid)
  | .guestTok tok => decide (v.guest_token = some tok)

/-- Number of stored rows for `(topic, identity)`. -/
def countIdentityVotes (votes : List VoteRec) (topic : String)
    (ident : VoterIdentity) : Nat :=
  votes.countP (fun v => decide (v.topic_id = topic) && matchesIdentity ident v)

/-- The mutual-exclusivity invariant `votes_identity_check`: exactly one
of `user_id` and `guest_token` is non-null. -/
def identityOk (v : VoteRec) : Prop :=
  (v.user_id ≠ none ∧ v.guest_token = none) ∨
    (v.user_id = none ∧ v.guest_token ≠ none)

instance (v : VoteRec) : Decidable (identityOk v) := by
  unfold identityOk
  infer_instance

/-! ### Guest-to-user merge (`merge_guest_votes_to_user` from
`20260218_extend_users_and_guest_merge.sql`). -/

/-- The reassignment update: `set user_id = p_user_id, guest_token = null,
merged_from_guest = true`. -/
def reassignVote (uid : String) (v : VoteRec) : VoteRec :=
  { v with user_id := some uid, guest_token := none, merged_from_guest := true }

/-- The loop cursor: `select id, topic_id from votes where guest_token =
p_guest_token and user_id is null` (snapshot taken at loop start). -/
def mergeTargets (votes : List VoteRec) (tok : String) : List (Nat × String) :=
  (votes.filter (fun v => decide (v.guest_token = some tok) &&
    decide (v.user_id = none))).map (fun v => (v.id, v.topic_id))

/-- One loop iteration: if the user already has a vote on the target's
topic, delete the guest row (`skipped`++); otherwise reassign it to the
user (`moved`++). -/
def mergeStep (uid : String) (acc : List VoteRec × Nat × Nat) (t : Nat × String) :
    List VoteRec × Nat × Nat :=
  let votes := acc.1
  let moved := acc.2.1
  let skipped := acc.2.2
  if hasUserVote votes t.2 uid then
    (votes.filter (fun v => decide (¬ v.id = t.1)), moved, skipped + 1)
  else
    (votes.map (fun v => if v.id = t.1 then reassignVote uid v else v), moved + 1, skipped)

/-- Embeds `merge_guest_votes_to_user(p_guest_token, p_user_id)` over an explicit
ledger state; `none` models the raised exception on a blank token (the
null-user-id guard is structurally impossible here since `uid` is a
string).  Returns the new state with the `moved` and `skipped` counters. -/
def merge_guest_votes_to_user (votes : List VoteRec) (tok : String) (uid : String) :
    Option (List VoteRec × Nat × Nat) :=
  if strTrim tok = "" then none
  else some ((mergeTargets votes tok).foldl (mergeStep uid) (votes, 0, 0))

/-- The cumulative effect of the merge loop, with the skip/move decision
precomputed by `pred` on the target's topic: each row whose id is
targeted is deleted when `pred` holds of its topic and reassigned
otherwise; other rows are untouched. -/
def mergeApply (pred : String → Bool) (uid : String) (ids : List Nat) :
    List VoteRec → List VoteRec
  | [] => []
  | v :: rest =>
    if v.id ∈ ids then
      (if pred v.topic_id then mergeApply pred uid ids rest
       else reassignVote uid v :: mergeApply pred uid ids rest)
    else v :: mergeApply pred uid ids rest

/-- Whether a stored row is one of the guest's (the loop cursor's row
condition, per row). -/
def isGuestRowOf (tok : String) (v : VoteRec) : Bool :=
  decide (v.guest_token = some tok) && decide (v.user_id = none)

/-- The skip/move decision of the merge loop, precomputed on the initial
state: whether the user already has a vote on a topic. -/
def mergePred (votes : List VoteRec) (uid : String) : String → Bool :=
  fun t => hasUserVote votes t uid

/-- The targeted row ids of a merge run. -/
def mergeIds (votes : List VoteRec) (tok : String) : List Nat :=
  (mergeTargets votes tok).map (fun p => p.1)

/-- The row a fresh non-admin submission stores for an identity. -/
def insertedRow (ident : VoterIdentity) (newId : Nat) (topic okey : String) : VoteRec :=
  match ident with
  | .userId uid => ⟨newId, topic, okey, some uid, none, false⟩
  | .guestTok tok => ⟨newId, topic, okey, none, some tok, false⟩

/-- A three-row ledger used by the ledger witnesses: a guest vote on a
topic the user also voted on, and one on a fresh topic. -/
def demoMergeVotes : List VoteRec :=
  [⟨1, "t1", "a", none, some "g", false⟩,
   ⟨2, "t2", "b", none, some "g", false⟩,
   ⟨3, "t1", "a", some "u", none, false⟩]

/-- The options table of the witness topic. -/
def demoOptions : List VoteOptionRec :=
  [⟨"t1", "a", 1⟩, ⟨"t1", "b", 2⟩]

/-! ### Bulk parent reconciliation (`src/scripts/import-universities.ts`,
the parent-link phase of `main`). -/

/-- A `schools` row as the reconciliation pass sees it (the select also
fetches `school_code`, which the pass never reads); `parent_school_id` is
the stored link its updates write. -/
structure SchoolRec where
  id : Nat
  school_name : String
  campus_type : Option String
  parent_school_id : Option Nat
deriving DecidableEq, Repr

/-- Embeds `normalizeBaseName` from the script — a verbatim copy of the
resolver's `normalizeKorean`. -/
def normalizeBaseName (name : String) : String :=
  normalizeKorean name

/-- Whether `s` contains `pat` (JS `String.prototype.includes`). -/
def containsSeq : List Char → List Char → Bool
  | [], pat => pat.isEmpty
  | c :: rest, pat => pat.isPrefixOf (c :: rest) || containsSeq rest pat

/-- Models `String(row.campus_type ?? '').includes('본교')`. -/
def hasMainCampusTag (campus : Option String) : Bool :=
  containsSeq (campus.getD "").toList "본교".toList

/-- Models `parentsByName.get(baseName)` over the association-list model of the
JS `Map` (insertion order, first writer wins). -/
def lookupName (m : List (String × Nat)) (name : String) : Option Nat :=
  (m.find? (fun e => decide (e.1 = name))).map (fun e => e.2)

/-- One `rows.forEach` body filling `parentsByName`: a row whose base
name is not yet mapped and that satisfies the pass condition registers
its id. -/
def parentsStep (p : SchoolRec → Bool) (m : List (String × Nat))
    (row : SchoolRec) : List (String × Nat) :=
  let baseName := normalizeBaseName row.school_name
  if (lookupName m baseName).isSome then m
  else if p row then m ++ [(baseName, row.id)]
  else m

/-- One `rows.forEach` pass filling `parentsByName`. -/
def parentsPass (p : SchoolRec → Bool) (acc : List (String × Nat))
    (rows : List SchoolRec) : List (String × Nat) :=
  rows.foldl (parentsStep p) acc

/-- The two passes of the script: first the rows tagged 본교 (main
campus), then any representative for names still unmapped. -/
def parentsByName (rows : List SchoolRec) : List (String × Nat) :=
  parentsPass (fun _ => true)
    (parentsPass (fun row => hasMainCampusTag row.campus_type) [] rows) rows

/-- The update statements the pass issues, one per non-main-campus row
whose name maps to a different row's id — regardless of the currently
stored `parent_school_id`, which the pass never reads. -/
def computeParentUpdates (rows : List SchoolRec) : List (Nat × Nat) :=
  rows.filterMap (fun row =>
    if hasMainCampusTag row.campus_type then none
    else
      match lookupName (parentsByName rows) (normalizeBaseName row.school_name) with
      | none => none
      | some parentId =>
        if parentId = row.id then none else some (row.id, parentId))

/-- One `update ... set parent_school_id = ? where id = ?`. -/
def applyOne (r : SchoolRec) (u : Nat × Nat) : SchoolRec :=
  if r.id = u.1 then { r with parent_school_id := some u.2 } else r

/-- Applying the update statements in order. -/
def applyParentUpdates (rows : List SchoolRec) (updates : List (Nat × Nat)) :
    List SchoolRec :=
  updates.foldl (fun s u => s.map (fun r => applyOne r u)) rows

/-- The whole reconciliation pass: compute and apply the updates. -/
def reconcileParents (rows : List SchoolRec) : List SchoolRec :=
  applyParentUpdates rows (computeParentUpdates rows)

/-- Counts `updatedParentLinks`: the number of update writes one run issues. -/
def parentWriteCount (rows : List SchoolRec) : Nat :=
  (computeParentUpdates rows).length

/-- C9's counterexample table: a main campus and a branch whose parent
link is already correct. -/
def demoSchools : List SchoolRec :=
  [⟨1, "X대학교", some "본교", none⟩,
   ⟨2, "X대학교", some "분교", some 1⟩]

/-! ### Helper lemmas -/

/-- A hit of the expanded-alias matching loop is a member of the pool. -/
theorem matchExpanded_mem (pool : List GazEntry) (es : List String) (hit : GazEntry)
    (h : matchExpanded pool es = some hit) : hit ∈ pool := by
  induction es with
  | nil => exact absurd h (by simp [matchExpanded])
  | cons e rest ih =>
    rw [matchExpanded] at h
    cases hf : pool.find? (fun item => item.norm == e) with
    | some g =>
      rw [hf] at h
      injection h with h₁
      exact h₁ ▸ List.mem_of_find?_eq_some hf
    | none =>
      rw [hf] at h
      cases hs : pool.find? (fun item => strEndsWith item.norm e || strEndsWith e item.norm) with
      | some g =>
        rw [hs] at h
        injection h with h₁
        exact h₁ ▸ List.mem_of_find?_eq_some hs
      | none =>
        rw [hs] at h
        exact ih h

/-- A hit of the candidate matching loop is a member of the pool. -/
theorem matchCandidates_mem (pool : List GazEntry) (cs : List String) (hit : GazEntry)
    (h : matchCandidates pool cs = some hit) : hit ∈ pool := by
  induction cs with
  | nil => exact absurd h (by simp [matchCandidates])
  | cons c rest ih =>
    rw [matchCandidates] at h
    cases hm : matchExpanded pool (expandSigunguAliases c) with
    | some g =>
      rw [hm] at h
      injection h with h₁
      exact h₁ ▸ matchExpanded_mem pool _ g hm
    | none =>
      rw [hm] at h
      exact ih h

/-- Weakening a conjunction inside a count. -/
theorem countP_and_le {α : Type} (rs : List α) (f g : α → Bool) :
    rs.countP (fun r => f r && g r) ≤ rs.countP f := by
  refine List.countP_mono_left ?_
  intro r _ hr
  simp only [Bool.and_eq_true] at hr
  exact hr.1

/-- The slow-path fold agrees with the count-based reference shape, with
rows filed under `slowRegionCode`. -/
theorem buildStats_eq_statsSpec (rows : List StatsVoteRow) (level : RegionLevel)
    (optA optB : String) (code : String) :
    buildStatsFromVoteRows rows level optA optB code =
      statsSpec (slowRegionCode level) optA optB rows code := by
  induction rows using List.reverseRecOn with
  | nil => simp [buildStatsFromVoteRows, statsSpec]
  | append_singleton rs r ih =>
    rw [buildStatsFromVoteRows, List.foldl_append, List.foldl_cons, List.foldl_nil,
      ← buildStatsFromVoteRows]
    cases hk : slowRegionCode level r with
    | none =>
      simp only [slowStep, hk]
      rw [ih]
      simp [statsSpec, List.countP_append, List.countP_singleton, hk]
    | some kc =>
      simp only [slowStep, hk]
      by_cases hc : code = kc
      · subst hc
        rw [if_pos rfl, ih]
        have ct : List.countP (fun x => decide (slowRegionCode level x = some code)) [r] = 1 := by
          simp [hk]
        have ca : List.countP (fun x => decide (slowRegionCode level x = some code) &&
            decide (x.option_key = optA)) [r] = (if r.option_key = optA then 1 else 0) := by
          by_cases hA : r.option_key = optA <;> simp [hk, hA]
        have cb : List.countP (fun x => decide (slowRegionCode level x = some code) &&
            decide (x.option_key = optB)) [r] = (if r.option_key = optB then 1 else 0) := by
          by_cases hB : r.option_key = optB <;> simp [hk, hB]
        simp only [statsSpec, List.countP_append, ct, ca, cb]
        by_cases hz : rs.countP (fun x => decide (slowRegionCode level x = some code)) = 0
        · have haz : rs.countP (fun x => decide (slowRegionCode level x = some code) &&
              decide (x.option_key = optA)) = 0 := by
            have hle : rs.countP (fun x => decide (slowRegionCode level x = some code) &&
                decide (x.option_key = optA)) ≤
                rs.countP (fun x => decide (slowRegionCode level x = some code)) :=
              countP_and_le rs _ _
            omega
          have hbz : rs.countP (fun x => decide (slowRegionCode level x = some code) &&
              decide (x.option_key = optB)) = 0 := by
            have hle : rs.countP (fun x => decide (slowRegionCode level x = some code) &&
                decide (x.option_key = optB)) ≤
                rs.countP (fun x => decide (slowRegionCode level x = some code)) :=
              countP_and_le rs _ _
            omega
          rw [hz, haz, hbz]
          simp [emptyStat]
        · have hz1 : ¬ (rs.countP (fun x => decide (slowRegionCode level x = some code)) + 1 = 0) := by
            omega
          rw [if_neg hz, if_neg hz1]
          rfl
      · have hc2 : ¬ (kc = code) := fun hh => hc hh.symm
        rw [if_neg hc, ih]
        simp [statsSpec, List.countP_append, List.countP_singleton, hk, hc2]

/-- One scoped-count equality behind the fast-path characterization: the
per-region total. -/
theorem scoped_countP_total (rows : List StatsVoteRow) (level : RegionLevel)
    (optA optB : String) (code : String)
    (hFK : ∀ r ∈ rows, r.option_key = optA ∨ r.option_key = optB) :
    (rows.filterMap
        (fun r => (positionOf optA optB r).map (fun p => (fastRegionCode level r, p)))).countP
        (fun x => decide (x.1 = some code)) =
      rows.countP (fun r => decide (fastRegionCode level r = some code)) := by
  induction rows with
  | nil => simp
  | cons r rest ih =>
    have hrest : ∀ x ∈ rest, x.option_key = optA ∨ x.option_key = optB :=
      fun x hx => hFK x (List.mem_cons_of_mem r hx)
    have hpos : ∃ p, positionOf optA optB r = some p := by
      by_cases hA : r.option_key = optA
      · exact ⟨1, by unfold positionOf; rw [if_pos hA]⟩
      · have hB : r.option_key = optB := (hFK r (List.mem_cons_self r rest)).resolve_left hA
        exact ⟨2, by unfold positionOf; rw [if_neg hA, if_pos hB]⟩
    rcases hpos with ⟨p, hp⟩
    simp [List.filterMap_cons, hp, List.countP_cons, ih hrest]

/-- One scoped-count equality behind the fast-path characterization: the
position-1 count is the `optA` count. -/
theorem scoped_countP_A (rows : List StatsVoteRow) (level : RegionLevel)
    (optA optB : String) (code : String)
    (hFK : ∀ r ∈ rows, r.option_key = optA ∨ r.option_key = optB) :
    (rows.filterMap
        (fun r => (positionOf optA optB r).map (fun p => (fastRegionCode level r, p)))).countP
        (fun x => decide (x.1 = some code) && decide (x.2 = 1)) =
      rows.countP (fun r => decide (fastRegionCode level r = some code) &&
        decide (r.option_key = optA)) := by
  induction rows with
  | nil => simp
  | cons r rest ih =>
    have hrest : ∀ x ∈ rest, x.option_key = optA ∨ x.option_key = optB :=
      fun x hx => hFK x (List.mem_cons_of_mem r hx)
    by_cases hA : r.option_key = optA
    · have hp : positionOf optA optB r = some 1 := by unfold positionOf; rw [if_pos hA]
      simp [List.filterMap_cons, hp, List.countP_cons, ih hrest, hA]
    · have hB : r.option_key = optB := (hFK r (List.mem_cons_self r rest)).resolve_left hA
      have hp : positionOf optA optB r = some 2 := by unfold positionOf; rw [if_neg hA, if_pos hB]
      simp [List.filterMap_cons, hp, List.countP_cons, ih hrest, hA]

/-- One scoped-count equality behind the fast-path characterization: the
position-2 count is the `optB` count (the option keys being distinct). -/
theorem scoped_countP_B (rows : List StatsVoteRow) (level : RegionLevel)
    (optA optB : String) (code : String)
    (hAB : optA ≠ optB)
    (hFK : ∀ r ∈ rows, r.option_key = optA ∨ r.option_key = optB) :
    (rows.filterMap
        (fun r => (positionOf optA optB r).map (fun p => (fastRegionCode level r, p)))).countP
        (fun x => decide (x.1 = some code) && decide (x.2 = 2)) =
      rows.countP (fun r => decide (fastRegionCode level r = some code) &&
        decide (r.option_key = optB)) := by
  induction rows with
  | nil => simp
  | cons r rest ih =>
    have hrest : ∀ x ∈ rest, x.option_key = optA ∨ x.option_key = optB :=
      fun x hx => hFK x (List.mem_cons_of_mem r hx)
    by_cases hA : r.option_key = optA
    · have hp : positionOf optA optB r = some 1 := by unfold positionOf; rw [if_pos hA]
      have hrB : ¬ r.option_key = optB := by
        rw [hA]
        exact hAB
      simp [List.filterMap_cons, hp, List.countP_cons, ih hrest, hrB]
    · have hB : r.option_key = optB := (hFK r (List.mem_cons_self r rest)).resolve_left hA
      have hp : positionOf optA optB r = some 2 := by unfold positionOf; rw [if_neg hA, if_pos hB]
      simp [List.filterMap_cons, hp, List.countP_cons, ih hrest, hB]

/-- The fast-path SQL aggregate agrees with the count-based reference
shape, with rows filed under `fastRegionCode`, for a topic whose votes
all reference one of its two distinct option keys. -/
theorem get_region_eq_statsSpec (rows : List StatsVoteRow) (level : RegionLevel)
    (optA optB : String) (code : String)
    (hAB : optA ≠ optB)
    (hFK : ∀ r ∈ rows, r.option_key = optA ∨ r.option_key = optB) :
    get_region_vote_stats rows level optA optB code =
      statsSpec (fastRegionCode level) optA optB rows code := by
  simp only [get_region_vote_stats, statsSpec]
  rw [scoped_countP_total rows level optA optB code hFK,
    scoped_countP_A rows level optA optB code hFK,
    scoped_countP_B rows level optA optB code hAB hFK]

/-- The reference shape only depends on the key function through its
values on the rows. -/
theorem statsSpec_congr (k₁ k₂ : StatsVoteRow → Option String) (optA optB : String)
    (rows : List StatsVoteRow) (code : String)
    (h : ∀ r ∈ rows, k₁ r = k₂ r) :
    statsSpec k₁ optA optB rows code = statsSpec k₂ optA optB rows code := by
  simp only [statsSpec]
  have h₁ : rows.countP (fun r => decide (k₁ r = some code)) =
      rows.countP (fun r => decide (k₂ r = some code)) :=
    List.countP_congr (fun a ha => by rw [h a ha])
  have h₂ : rows.countP (fun r => decide (k₁ r = some code) && decide (r.option_key = optA)) =
      rows.countP (fun r => decide (k₂ r = some code) && decide (r.option_key = optA)) :=
    List.countP_congr (fun a ha => by rw [h a ha])
  have h₃ : rows.countP (fun r => decide (k₁ r = some code) && decide (r.option_key = optB)) =
      rows.countP (fun r => decide (k₂ r = some code) && decide (r.option_key = optB)) :=
    List.countP_congr (fun a ha => by rw [h a ha])
  rw [h₁, h₂, h₃]

/-- The winner comparison, characterized. -/
theorem winnerOf_iff (a b : Nat) :
    (winnerOf a b = Winner.A ↔ b < a) ∧ (winnerOf a b = Winner.B ↔ a < b) ∧
      (winnerOf a b = Winner.TIE ↔ a = b) := by
  unfold winnerOf
  by_cases h₁ : b < a
  · simp [h₁]
    omega
  · by_cases h₂ : a < b
    · simp [h₁, h₂]
      omega
    · simp [h₁, h₂]
      omega

/-- A successful insert appended exactly the given row, and that row
passed the identity check. -/
theorem dbInsertVote_ok (votes : List VoteRec) (v : VoteRec) (s : List VoteRec)
    (h : dbInsertVote votes v = .ok s) : s = votes ++ [v] ∧ identityOk v := by
  cases hu : v.user_id with
  | some uid =>
    cases hg : v.guest_token with
    | some tok => simp [dbInsertVote, hu, hg] at h
    | none =>
      simp only [dbInsertVote, hu, hg] at h
      split at h
      · exact absurd h (by simp)
      · injection h with h₁
        exact ⟨h₁.symm, Or.inl ⟨by rw [hu]; simp, hg⟩⟩
  | none =>
    cases hg : v.guest_token with
    | none => simp [dbInsertVote, hu, hg] at h
    | some tok =>
      simp only [dbInsertVote, hu, hg] at h
      split at h
      · exact absurd h (by simp)
      · injection h with h₁
        exact ⟨h₁.symm, Or.inr ⟨hu, by rw [hg]; simp⟩⟩

/-- The user pre-check is the emptiness of the identity count. -/
theorem hasUserVote_iff_count (votes : List VoteRec) (t uid : String) :
    hasUserVote votes t uid = true ↔
      0 < countIdentityVotes votes t (.userId uid) := by
  rw [hasUserVote, countIdentityVotes, List.any_eq_true, List.countP_pos_iff]
  constructor
  · rintro ⟨v, hv, hp⟩
    refine ⟨v, hv, ?_⟩
    simp only [decide_eq_true_eq] at hp
    simp [matchesIdentity, hp.1, hp.2]
  · rintro ⟨v, hv, hp⟩
    refine ⟨v, hv, ?_⟩
    simp only [matchesIdentity, Bool.and_eq_true, decide_eq_true_eq] at hp
    simp [hp.1, hp.2]

/-- The guest pre-check is the emptiness of the identity count. -/
theorem hasGuestVote_iff_count (votes : List VoteRec) (t tok : String) :
    hasGuestVote votes t tok = true ↔
      0 < countIdentityVotes votes t (.guestTok tok) := by
  rw [hasGuestVote, countIdentityVotes, List.any_eq_true, List.countP_pos_iff]
  constructor
  · rintro ⟨v, hv, hp⟩
    refine ⟨v, hv, ?_⟩
    simp only [decide_eq_true_eq] at hp
    simp [matchesIdentity, hp.1, hp.2]
  · rintro ⟨v, hv, hp⟩
    refine ⟨v, hv, ?_⟩
    simp only [matchesIdentity, Bool.and_eq_true, decide_eq_true_eq] at hp
    simp [hp.1, hp.2]

/-- A fresh submission by a non-allow-listed identity stores exactly one
new row for it. -/
theorem submitVote_fresh (options : List VoteOptionRec) (votes : List VoteRec)
    (user : Option AuthUser) (req : SubmitReq) (storedProfileOk : Bool)
    (newId : Nat) (adminToken : String) (ident : VoterIdentity)
    (hident : requestIdentity user req = some ident)
    (hadmin : isUnlimitedAdminOf user = false)
    (hopt : (options.find? (fun o =>
      decide (o.topic_id = req.topicId ∧ o.option_key = req.optionKey))).isSome = true)
    (hprof : req.profileGiven = true)
    (hfresh : countIdentityVotes votes req.topicId ident = 0) :
    submitVote options votes user req storedProfileOk newId adminToken =
      (.created newId, votes ++ [insertedRow ident newId req.topicId req.optionKey]) := by
  have hoptn : (options.find? (fun o =>
      decide (o.topic_id = req.topicId ∧ o.option_key = req.optionKey))).isNone = false := by
    cases hf : options.find? (fun o =>
      decide (o.topic_id = req.topicId ∧ o.option_key = req.optionKey))
    · rw [hf] at hopt; exact absurd hopt (by simp)
    · simp
  cases user with
  | some au =>
    have hid : ident = .userId au.id := by
      simp only [requestIdentity] at hident
      exact (Option.some.inj hident).symm
    subst hid
    have hnv : hasUserVote votes req.topicId au.id = false := by
      cases hh : hasUserVote votes req.topicId au.id
      · rfl
      · have := (hasUserVote_iff_count votes req.topicId au.id).mp hh
        omega
    simp only [submitVote, Option.map_some', Option.isNone_some, Bool.false_and,
      Bool.false_eq_true, if_false, hoptn, hadmin, hnv, hprof, Bool.not_true,
      Bool.false_and, if_false, Bool.if_false_left]
    simp only [dbInsertVote, hnv]
    simp [insertedRow]
  | none =>
    cases hg : req.guestToken with
    | none => rw [requestIdentity, hg] at hident; exact absurd hident (by simp)
    | some tok =>
      have hid : ident = .guestTok tok := by
        rw [requestIdentity, hg] at hident
        exact (Option.some.inj hident).symm
      subst hid
      have hnv : hasGuestVote votes req.topicId tok = false := by
        cases hh : hasGuestVote votes req.topicId tok
        · rfl
        · have := (hasGuestVote_iff_count votes req.topicId tok).mp hh
          omega
      simp only [submitVote, Option.map_none', hg, Option.isNone_some, Bool.and_false,
        Bool.false_eq_true, if_false, hoptn, hadmin, hnv, hprof, Bool.not_true,
        Bool.false_and, if_false]
      simp only [dbInsertVote, hnv]
      simp [insertedRow]

/-- A repeat submission by a non-allow-listed identity that already has a
row on the topic is answered with the duplicate conflict and leaves the
ledger unchanged. -/
theorem submitVote_dup (options : List VoteOptionRec) (votes : List VoteRec)
    (user : Option AuthUser) (req : SubmitReq) (storedProfileOk : Bool)
    (newId : Nat) (adminToken : String) (ident : VoterIdentity)
    (hident : requestIdentity user req = some ident)
    (hadmin : isUnlimitedAdminOf user = false)
    (hopt : (options.find? (fun o =>
      decide (o.topic_id = req.topicId ∧ o.option_key = req.optionKey))).isSome = true)
    (hdup : 0 < countIdentityVotes votes req.topicId ident) :
    submitVote options votes user req storedProfileOk newId adminToken =
      (.duplicateVote, votes) := by
  have hoptn : (options.find? (fun o =>
      decide (o.topic_id = req.topicId ∧ o.option_key = req.optionKey))).isNone = false := by
    cases hf : options.find? (fun o =>
      decide (o.topic_id = req.topicId ∧ o.option_key = req.optionKey))
    · rw [hf] at hopt; exact absurd hopt (by simp)
    · simp
  cases user with
  | some au =>
    have hid : ident = .userId au.id := by
      simp only [requestIdentity] at hident
      exact (Option.some.inj hident).symm
    subst hid
    have hv : hasUserVote votes req.topicId au.id = true :=
      (hasUserVote_iff_count votes req.topicId au.id).mpr hdup
    rcases Option.isSome_iff_exists.mp hopt with ⟨o, ho⟩
    have hmem := List.mem_of_find?_eq_some ho
    have hpred := List.find?_some ho
    simp only [decide_eq_true_eq] at hpred
    simp [submitVote, hoptn, hadmin, hv]
    exact ⟨o, hmem, hpred⟩
  | none =>
    cases hg : req.guestToken with
    | none => rw [requestIdentity, hg] at hident; exact absurd hident (by simp)
    | some tok =>
      have hid : ident = .guestTok tok := by
        rw [requestIdentity, hg] at hident
        exact (Option.some.inj hident).symm
      subst hid
      have hv : hasGuestVote votes req.topicId tok = true :=
        (hasGuestVote_iff_count votes req.topicId tok).mpr hdup
      rcases Option.isSome_iff_exists.mp hopt with ⟨o, ho⟩
      have hmem := List.mem_of_find?_eq_some ho
      have hpred := List.find?_some ho
      simp only [decide_eq_true_eq] at hpred
      simp [submitVote, hg, hoptn, hadmin, hv]
      exact ⟨o, hmem, hpred⟩

/-- A submission either leaves the ledger unchanged or appends a single
row that passed the identity check. -/
theorem submitVote_state (options : List VoteOptionRec) (votes : List VoteRec)
    (user : Option AuthUser) (req : SubmitReq) (storedProfileOk : Bool)
    (newId : Nat) (adminToken : String) :
    (submitVote options votes user req storedProfileOk newId adminToken).2 = votes ∨
      ∃ w, (submitVote options votes user req storedProfileOk newId adminToken).2 =
        votes ++ [w] ∧ identityOk w := by
  simp only [submitVote]
  repeat' first
    | exact Or.inl rfl
    | split
  all_goals rename_i s hok
  all_goals exact Or.inr ⟨_, (dbInsertVote_ok _ _ _ hok).1, (dbInsertVote_ok _ _ _ hok).2⟩

/-- Unfolding the skip branch of the merge loop. -/
theorem mergeStep_delete (uid : String) (s : List VoteRec) (m k : Nat)
    (t : Nat × String) (h : hasUserVote s t.2 uid = true) :
    mergeStep uid (s, m, k) t =
      (s.filter (fun v => decide (¬ v.id = t.1)), m, k + 1) := by
  simp [mergeStep, h]

/-- Unfolding the move branch of the merge loop. -/
theorem mergeStep_move (uid : String) (s : List VoteRec) (m k : Nat)
    (t : Nat × String) (h : hasUserVote s t.2 uid = false) :
    mergeStep uid (s, m, k) t =
      (s.map (fun v => if v.id = t.1 then reassignVote uid v else v), m + 1, k) := by
  simp [mergeStep, h]

/-- The merge loop preserves the identity check row-wise. -/
theorem mergeFold_identityOk (uid : String) (ts : List (Nat × String)) :
    ∀ (s : List VoteRec) (m k : Nat), (∀ v ∈ s, identityOk v) →
      ∀ v ∈ (ts.foldl (mergeStep uid) (s, m, k)).1, identityOk v := by
  induction ts with
  | nil => exact fun s m k hs v hv => hs v hv
  | cons t rest ih =>
    intro s m k hs v hv
    rw [List.foldl_cons] at hv
    cases hc : hasUserVote s t.2 uid with
    | true =>
      rw [mergeStep_delete uid s m k t hc] at hv
      exact ih _ _ _ (fun w hw => hs w (List.mem_of_mem_filter hw)) v hv
    | false =>
      rw [mergeStep_move uid s m k t hc] at hv
      refine ih _ _ _ ?_ v hv
      intro w hw
      rcases List.mem_map.mp hw with ⟨u, hu, hwu⟩
      by_cases hui : u.id = t.1
      · rw [← hwu, if_pos hui]
        exact Or.inl ⟨by simp [reassignVote], by simp [reassignVote]⟩
      · rw [← hwu, if_neg hui]
        exact hs u hu

/-- With no targeted ids, the loop effect is the identity. -/
theorem mergeApply_nil (pred : String → Bool) (uid : String) (s : List VoteRec) :
    mergeApply pred uid [] s = s := by
  induction s with
  | nil => rfl
  | cons v rest ih => simp [mergeApply, ih]

/-- Weakening a conjunction inside a count, right side. -/
theorem countP_and_le_right {α : Type} (rs : List α) (f g : α → Bool) :
    rs.countP (fun r => f r && g r) ≤ rs.countP g := by
  refine List.countP_mono_left ?_
  intro r _ hr
  simp only [Bool.and_eq_true] at hr
  exact hr.2

/-- A list whose image is duplicate-free has at most one element at each
image value. -/
theorem countP_le_one_of_nodup_map {α β : Type} [DecidableEq β] (rs : List α)
    (g : α → β) (t : β) (h : (rs.map g).Nodup) :
    rs.countP (fun a => decide (g a = t)) ≤ 1 := by
  induction rs with
  | nil => simp
  | cons r tl ih =>
    simp only [List.map_cons, List.nodup_cons] at h
    by_cases hr : g r = t
    · rw [List.countP_cons_of_pos _ _ (by simp [hr])]
      have hz : tl.countP (fun a => decide (g a = t)) = 0 := by
        rw [List.countP_eq_zero]
        intro b hb hfb
        simp only [decide_eq_true_eq] at hfb
        exact h.1 (List.mem_map.mpr ⟨b, hb, by rw [hfb, hr]⟩)
      omega
    · rw [List.countP_cons_of_neg _ _ (by simp [hr])]
      exact ih h.2

/-- Conversely, at most one element per image value means the image list
is duplicate-free. -/
theorem nodup_map_of_countP_le_one {α β : Type} [DecidableEq β] (rs : List α)
    (g : α → β) (h : ∀ t, rs.countP (fun a => decide (g a = t)) ≤ 1) :
    (rs.map g).Nodup := by
  induction rs with
  | nil => simp
  | cons r tl ih =>
    simp only [List.map_cons, List.nodup_cons]
    constructor
    · intro hmem
      rcases List.mem_map.mp hmem with ⟨b, hb, hfb⟩
      have hle := h (g r)
      rw [List.countP_cons_of_pos _ _ (by simp)] at hle
      have hpos : 0 < tl.countP (fun a => decide (g a = g r)) :=
        List.countP_pos_iff.mpr ⟨b, hb, by simp [hfb]⟩
      omega
    · refine ih (fun t => ?_)
      have hle := h t
      rw [List.countP_cons] at hle
      omega

/-- The partial uniqueness constraint, stated per topic, follows from the
identity's filtered rows having duplicate-free topics. -/
theorem countIdentityVotes_le_one_of_nodup (votes : List VoteRec)
    (ident : VoterIdentity)
    (h : ((votes.filter (matchesIdentity ident)).map (fun v => v.topic_id)).Nodup) :
    ∀ t, countIdentityVotes votes t ident ≤ 1 := by
  intro t
  rw [countIdentityVotes]
  have hle := countP_le_one_of_nodup_map (votes.filter (matchesIdentity ident))
    (fun v => v.topic_id) t h
  rw [List.countP_filter] at hle
  exact hle

/-- Commuting a pending delete past the loop effect: when every row with
the targeted id is bound for deletion, targeting it first is the same as
deleting it first. -/
theorem mergeApply_delete_comm (pred : String → Bool) (uid : String) (i : Nat)
    (ids : List Nat) (s : List VoteRec)
    (hall : ∀ v ∈ s, v.id = i → pred v.topic_id = true) :
    mergeApply pred uid (i :: ids) s =
      mergeApply pred uid ids (s.filter (fun v => decide (¬ v.id = i))) := by
  induction s with
  | nil => rfl
  | cons v rest ih =>
    have hrest : ∀ w ∈ rest, w.id = i → pred w.topic_id = true :=
      fun w hw => hall w (List.mem_cons_of_mem v hw)
    by_cases hv : v.id = i
    · have hpv := hall v (List.mem_cons_self v rest) hv
      simp [mergeApply, List.filter_cons, hv, hpv, ih hrest]
    · by_cases hmem : v.id ∈ ids
      · by_cases hp : pred v.topic_id
        <;> simp [mergeApply, List.filter_cons, hv, hmem, hp, ih hrest]
      · simp [mergeApply, List.filter_cons, hv, hmem, ih hrest]

/-- Commuting a pending reassignment past the loop effect. -/
theorem mergeApply_move_comm (pred : String → Bool) (uid : String) (i : Nat)
    (ids : List Nat) (s : List VoteRec)
    (hall : ∀ v ∈ s, v.id = i → pred v.topic_id = false)
    (hni : i ∉ ids) :
    mergeApply pred uid (i :: ids) s =
      mergeApply pred uid ids
        (s.map (fun v => if v.id = i then reassignVote uid v else v)) := by
  induction s with
  | nil => rfl
  | cons v rest ih =>
    have hrest : ∀ w ∈ rest, w.id = i → pred w.topic_id = false :=
      fun w hw => hall w (List.mem_cons_of_mem v hw)
    by_cases hv : v.id = i
    · have hpv := hall v (List.mem_cons_self v rest) hv
      have hrid : (reassignVote uid v).id = v.id := rfl
      simp [mergeApply, List.map_cons, hv, hpv, hrid, hni, ih hrest]
    · by_cases hmem : v.id ∈ ids
      · by_cases hp : pred v.topic_id
        <;> simp [mergeApply, List.map_cons, hv, hmem, hp, ih hrest]
      · simp [mergeApply, List.map_cons, hv, hmem, ih hrest]

/-- Unfolding one row of the user pre-check. -/
theorem hasUserVote_cons (w : VoteRec) (l : List VoteRec) (t uid : String) :
    hasUserVote (w :: l) t uid =
      (decide (w.topic_id = t ∧ w.user_id = some uid) || hasUserVote l t uid) := rfl

/-- Deleting a row with no user id does not change the user pre-check. -/
theorem hasUserVote_filter_id (s : List VoteRec) (i : Nat) (t uid : String)
    (hall : ∀ v ∈ s, v.id = i → v.user_id = none) :
    hasUserVote (s.filter (fun v => decide (¬ v.id = i))) t uid =
      hasUserVote s t uid := by
  induction s with
  | nil => rfl
  | cons v rest ih =>
    have hrest : ∀ w ∈ rest, w.id = i → w.user_id = none :=
      fun w hw => hall w (List.mem_cons_of_mem v hw)
    rw [List.filter_cons]
    by_cases hv : v.id = i
    · have hnone := hall v (List.mem_cons_self v rest) hv
      rw [if_neg (by simp [hv]), ih hrest, hasUserVote_cons]
      have hfalse : decide (v.topic_id = t ∧ v.user_id = some uid) = false := by
        simp [hnone]
      rw [hfalse, Bool.false_or]
    · rw [if_pos (by simp [hv]), hasUserVote_cons, hasUserVote_cons, ih hrest]

/-- Reassigning a row of a different topic does not change the user
pre-check at a topic. -/
theorem hasUserVote_map_reassign (s : List VoteRec) (i : Nat) (t₀ t uid : String)
    (hall : ∀ v ∈ s, v.id = i → v.topic_id = t₀)
    (hne : ¬ t = t₀) :
    hasUserVote (s.map (fun v => if v.id = i then reassignVote uid v else v)) t uid =
      hasUserVote s t uid := by
  have hne2 : ¬ t₀ = t := fun hh => hne hh.symm
  induction s with
  | nil => rfl
  | cons v rest ih =>
    have hrest : ∀ w ∈ rest, w.id = i → w.topic_id = t₀ :=
      fun w hw => hall w (List.mem_cons_of_mem v hw)
    rw [List.map_cons]
    by_cases hv : v.id = i
    · have ht := hall v (List.mem_cons_self v rest) hv
      rw [if_pos hv, hasUserVote_cons, hasUserVote_cons, ih hrest]
      have h₁ : decide ((reassignVote uid v).topic_id = t ∧
          (reassignVote uid v).user_id = some uid) = false := by
        simp [reassignVote, ht, hne2]
      have h₂ : decide (v.topic_id = t ∧ v.user_id = some uid) = false := by
        simp [ht, hne2]
      rw [h₁, h₂]
    · rw [if_neg hv, hasUserVote_cons, hasUserVote_cons, ih hrest]

/-- The merge loop, run from a state whose targeted rows are the guest's
(with duplicate-free ids and topics), equals the precomputed loop effect
with the skip/move decisions taken on the initial state. -/
theorem mergeRun_spec (uid tok : String) (pred : String → Bool)
    (ts : List (Nat × String)) :
    ∀ (s : List VoteRec) (m k : Nat),
      (s.map (fun v => v.id)).Nodup →
      (∀ p ∈ ts, ∀ v ∈ s, v.id = p.1 →
        v.topic_id = p.2 ∧ v.guest_token = some tok ∧ v.user_id = none) →
      (ts.map (fun p => p.1)).Nodup →
      (ts.map (fun p => p.2)).Nodup →
      (∀ p ∈ ts, hasUserVote s p.2 uid = pred p.2) →
      ts.foldl (mergeStep uid) (s, m, k) =
        (mergeApply pred uid (ts.map (fun p => p.1)) s,
          m + ts.countP (fun p => !(pred p.2)),
          k + ts.countP (fun p => pred p.2)) := by
  induction ts with
  | nil =>
    intro s m k _ _ _ _ _
    simp [mergeApply_nil]
  | cons t rest ih =>
    intro s m k hnd hrows hids htop hpred
    rw [List.foldl_cons]
    have hpt := hpred t (List.mem_cons_self t rest)
    have hrowt : ∀ v ∈ s, v.id = t.1 →
        v.topic_id = t.2 ∧ v.guest_token = some tok ∧ v.user_id = none :=
      hrows t (List.mem_cons_self t rest)
    have hidrest : (rest.map (fun p => p.1)).Nodup := by
      simp only [List.map_cons, List.nodup_cons] at hids
      exact hids.2
    have ht1 : t.1 ∉ rest.map (fun p => p.1) := by
      simp only [List.map_cons, List.nodup_cons] at hids
      exact hids.1
    have htoprest : (rest.map (fun p => p.2)).Nodup := by
      simp only [List.map_cons, List.nodup_cons] at htop
      exact htop.2
    have ht2 : t.2 ∉ rest.map (fun p => p.2) := by
      simp only [List.map_cons, List.nodup_cons] at htop
      exact htop.1
    cases hcase : pred t.2 with
    | true =>
      rw [mergeStep_delete uid s m k t (by rw [hpt, hcase])]
      have hnd₁ : ((s.filter (fun v => decide (¬ v.id = t.1))).map
          (fun v => v.id)).Nodup :=
        List.Nodup.sublist (List.Sublist.map _ (List.filter_sublist s)) hnd
      have hrows₁ : ∀ p ∈ rest, ∀ v ∈ s.filter (fun v => decide (¬ v.id = t.1)),
          v.id = p.1 →
          v.topic_id = p.2 ∧ v.guest_token = some tok ∧ v.user_id = none :=
        fun p hp v hv => hrows p (List.mem_cons_of_mem t hp) v (List.mem_of_mem_filter hv)
      have hpred₁ : ∀ p ∈ rest,
          hasUserVote (s.filter (fun v => decide (¬ v.id = t.1))) p.2 uid = pred p.2 := by
        intro p hp
        rw [hasUserVote_filter_id s t.1 p.2 uid (fun v hv hvi => (hrowt v hv hvi).2.2)]
        exact hpred p (List.mem_cons_of_mem t hp)
      rw [ih _ m (k + 1) hnd₁ hrows₁ hidrest htoprest hpred₁]
      rw [List.map_cons,
        mergeApply_delete_comm pred uid t.1 (rest.map (fun p => p.1)) s
          (fun v hv hvi => by rw [(hrowt v hv hvi).1]; exact hcase)]
      simp only [Prod.mk.injEq, true_and]
      refine ⟨?_, ?_⟩ <;> rw [List.countP_cons] <;> simp [hcase] <;> omega
    | false =>
      rw [mergeStep_move uid s m k t (by rw [hpt, hcase])]
      have hmapid : ((s.map (fun v => if v.id = t.1 then reassignVote uid v else v)).map
          (fun v => v.id)) = s.map (fun v => v.id) := by
        rw [List.map_map]
        refine List.map_congr_left (fun v _ => ?_)
        by_cases hvi : v.id = t.1
        · simp [hvi, reassignVote]
        · simp [hvi]
      have hnd₁ : ((s.map (fun v => if v.id = t.1 then reassignVote uid v else v)).map
          (fun v => v.id)).Nodup := by
        rw [hmapid]; exact hnd
      have hrows₁ : ∀ p ∈ rest,
          ∀ v ∈ s.map (fun v => if v.id = t.1 then reassignVote uid v else v),
          v.id = p.1 →
          v.topic_id = p.2 ∧ v.guest_token = some tok ∧ v.user_id = none := by
        intro p hp v hv hvid
        rcases List.mem_map.mp hv with ⟨u, hu, huv⟩
        have hp1 : ¬ p.1 = t.1 := by
          intro hcontra
          exact ht1 (hcontra ▸ List.mem_map.mpr ⟨p, hp, rfl⟩)
        by_cases hui : u.id = t.1
        · exfalso
          rw [← huv, if_pos hui] at hvid
          have hid₂ : u.id = p.1 := hvid
          exact hp1 (by rw [← hid₂, hui])
        · rw [← huv, if_neg hui] at hvid ⊢
          exact hrows p (List.mem_cons_of_mem t hp) u hu hvid
      have hpred₁ : ∀ p ∈ rest,
          hasUserVote (s.map (fun v => if v.id = t.1 then reassignVote uid v else v))
            p.2 uid = pred p.2 := by
        intro p hp
        have hnept : ¬ p.2 = t.2 := by
          intro hcontra
          exact ht2 (hcontra ▸ List.mem_map.mpr ⟨p, hp, rfl⟩)
        rw [hasUserVote_map_reassign s t.1 t.2 p.2 uid
          (fun v hv hvi => (hrowt v hv hvi).1) hnept]
        exact hpred p (List.mem_cons_of_mem t hp)
      rw [ih _ (m + 1) k hnd₁ hrows₁ hidrest htoprest hpred₁]
      rw [List.map_cons,
        mergeApply_move_comm pred uid t.1 (rest.map (fun p => p.1)) s
          (fun v hv hvi => by rw [(hrowt v hv hvi).1]; exact hcase) ht1]
      simp only [Prod.mk.injEq, true_and]
      refine ⟨?_, ?_⟩ <;> rw [List.countP_cons] <;> simp [hcase] <;> omega

/-- After the loop effect, no row carries the guest token, provided every
guest-token row was targeted. -/
theorem mergeApply_guest_free (pred : String → Bool) (uid : String) (ids : List Nat)
    (s : List VoteRec) (tok : String)
    (htar : ∀ v ∈ s, v.guest_token = some tok → v.id ∈ ids) :
    ∀ v ∈ mergeApply pred uid ids s, ¬ v.guest_token = some tok := by
  induction s with
  | nil => simp [mergeApply]
  | cons w rest ih =>
    intro v hv
    have hrest : ∀ u ∈ rest, u.guest_token = some tok → u.id ∈ ids :=
      fun u hu => htar u (List.mem_cons_of_mem w hu)
    by_cases hw : w.id ∈ ids
    · by_cases hp : pred w.topic_id
      · simp only [mergeApply, if_pos hw, if_pos hp] at hv
        exact ih hrest v hv
      · simp only [mergeApply, if_pos hw, if_neg hp] at hv
        rcases List.mem_cons.mp hv with h | h
        · rw [h]
          simp [reassignVote]
        · exact ih hrest v h
    · simp only [mergeApply, if_neg hw] at hv
      rcases List.mem_cons.mp hv with h | h
      · rw [h]
        intro hg
        exact hw (htar w (List.mem_cons_self w rest) hg)
      · exact ih hrest v h

/-- Counting rows after the loop effect: untargeted rows keep their
predicate value, deleted rows vanish, reassigned rows are counted through
the reassignment. -/
theorem mergeApply_countP (pred : String → Bool) (uid : String) (ids : List Nat)
    (s : List VoteRec) (q : VoteRec → Bool) :
    (mergeApply pred uid ids s).countP q =
      s.countP (fun v => decide (¬ v.id ∈ ids) && q v) +
        s.countP (fun v => decide (v.id ∈ ids) && !pred v.topic_id &&
          q (reassignVote uid v)) := by
  induction s with
  | nil => simp [mergeApply]
  | cons w rest ih =>
    by_cases hw : w.id ∈ ids
    · by_cases hp : pred w.topic_id
      · simp only [mergeApply, if_pos hw, if_pos hp, List.countP_cons, ih]
        simp [hw, hp]
      · simp only [mergeApply, if_pos hw, if_neg hp, List.countP_cons, ih]
        by_cases hq : q (reassignVote uid w) <;> simp [hw, hp, hq] <;> omega
    · simp only [mergeApply, if_neg hw, List.countP_cons, ih]
      by_cases hq : q w <;> simp [hw, hq] <;> omega

/-- A targeted row bound for reassignment appears reassigned in the loop
effect. -/
theorem mergeApply_mem_reassign (pred : String → Bool) (uid : String)
    (ids : List Nat) (s : List VoteRec) (v : VoteRec)
    (hv : v ∈ s) (hid : v.id ∈ ids) (hp : pred v.topic_id = false) :
    reassignVote uid v ∈ mergeApply pred uid ids s := by
  induction s with
  | nil => cases hv
  | cons w rest ih =>
    rcases List.mem_cons.mp hv with h | h
    · subst h
      simp only [mergeApply, if_pos hid]
      rw [if_neg (by simp [hp])]
      exact List.mem_cons_self _ _
    · by_cases hw : w.id ∈ ids
      · by_cases hpw : pred w.topic_id
        · simp only [mergeApply, if_pos hw, if_pos hpw]
          exact ih h
        · simp only [mergeApply, if_pos hw, if_neg hpw]
          exact List.mem_cons_of_mem _ (ih h)
      · simp only [mergeApply, if_neg hw]
        exact List.mem_cons_of_mem _ (ih h)

/-- A targeted id all of whose rows are bound for deletion is absent from
the loop effect. -/
theorem mergeApply_id_gone (pred : String → Bool) (uid : String) (ids : List Nat)
    (s : List VoteRec) (i : Nat)
    (hid : i ∈ ids)
    (hall : ∀ w ∈ s, w.id = i → pred w.topic_id = true) :
    ∀ w ∈ mergeApply pred uid ids s, ¬ w.id = i := by
  induction s with
  | nil => simp [mergeApply]
  | cons w rest ih =>
    intro x hx
    have hrest : ∀ u ∈ rest, u.id = i → pred u.topic_id = true :=
      fun u hu => hall u (List.mem_cons_of_mem w hu)
    by_cases hw : w.id ∈ ids
    · by_cases hpw : pred w.topic_id
      · simp only [mergeApply, if_pos hw, if_pos hpw] at hx
        exact ih hrest x hx
      · simp only [mergeApply, if_pos hw, if_neg hpw] at hx
        rcases List.mem_cons.mp hx with h | h
        · rw [h]
          intro hxi
          have : w.id = i := hxi
          exact absurd (hall w (List.mem_cons_self w rest) this) (by simp [hpw])
        · exact ih hrest x h
    · simp only [mergeApply, if_neg hw] at hx
      rcases List.mem_cons.mp hx with h | h
      · rw [h]
        intro hxi
        have hpt := hall w (List.mem_cons_self w rest) hxi
        -- w is a row with the targeted id yet untargeted: impossible only
        -- through hid; but membership of the id in ids was false, and no
        -- contradiction is needed: w survives untouched, so its id must
        -- differ from the targeted one.
        exact hw (hxi ▸ hid)
      · exact ih hrest x h

/-- Every guest-token row (its user id being null by the identity check)
is targeted by the merge cursor. -/
theorem guest_rows_targeted (votes : List VoteRec) (tok : String)
    (hIdent : ∀ v ∈ votes, identityOk v) :
    ∀ v ∈ votes, v.guest_token = some tok → v.id ∈ mergeIds votes tok := by
  intro v hv hg
  have hu : v.user_id = none := by
    rcases hIdent v hv with h | h
    · rw [h.2] at hg
      exact absurd hg (by simp)
    · exact h.1
  rw [mergeIds, mergeTargets, List.map_map]
  exact List.mem_map.mpr ⟨v, List.mem_filter.mpr ⟨hv, by simp [hg, hu]⟩, rfl⟩

/-- A row with a targeted id is a guest-token row with a null user id
(ids being unique). -/
theorem targeted_row_props (votes : List VoteRec) (tok : String)
    (hIds : (votes.map (fun v => v.id)).Nodup) :
    ∀ v ∈ votes, v.id ∈ mergeIds votes tok →
      v.guest_token = some tok ∧ v.user_id = none := by
  intro v hv hid
  rw [mergeIds, mergeTargets, List.map_map] at hid
  rcases List.mem_map.mp hid with ⟨w, hwf, hwid⟩
  have hw := List.mem_filter.mp hwf
  have hwid₂ : w.id = v.id := hwid
  have hvw : v = w :=
    List.inj_on_of_nodup_map hIds hv (List.mem_of_mem_filter hwf) hwid₂.symm
  have hprops := hw.2
  simp only [Bool.and_eq_true, decide_eq_true_eq] at hprops
  rw [hvw]
  exact hprops

/-- One merge run, characterized: the returned state is the loop effect
with decisions taken on the initial state, `moved` counts the guest rows
on topics the user had not voted on, and `skipped` the others. -/
theorem mergeRun_characterized (votes : List VoteRec) (tok uid : String)
    (htok : ¬ strTrim tok = "")
    (hIds : (votes.map (fun v => v.id)).Nodup)
    (hGuest : ∀ t, countIdentityVotes votes t (.guestTok tok) ≤ 1) :
    merge_guest_votes_to_user votes tok uid =
      some (mergeApply (mergePred votes uid) uid (mergeIds votes tok) votes,
        votes.countP (fun v => isGuestRowOf tok v &&
          !(hasUserVote votes v.topic_id uid)),
        votes.countP (fun v => isGuestRowOf tok v &&
          hasUserVote votes v.topic_id uid)) := by
  rw [merge_guest_votes_to_user, if_neg htok]
  have hrows : ∀ p ∈ mergeTargets votes tok, ∀ v ∈ votes, v.id = p.1 →
      v.topic_id = p.2 ∧ v.guest_token = some tok ∧ v.user_id = none := by
    intro p hp v hv hvid
    rcases List.mem_map.mp hp with ⟨w, hwf, hwp⟩
    have hw := List.mem_filter.mp hwf
    have hwprops : w.guest_token = some tok ∧ w.user_id = none := by
      have h := hw.2
      simp only [Bool.and_eq_true, decide_eq_true_eq] at h
      exact h
    have hwid : w.id = p.1 := by rw [← hwp]
    have hvw : v = w :=
      List.inj_on_of_nodup_map hIds hv hw.1 (by rw [hvid, hwid])
    subst hvw
    exact ⟨by rw [← hwp], hwprops.1, hwprops.2⟩
  have hfilsub : List.Sublist (votes.filter (fun v => decide (v.guest_token = some tok) &&
      decide (v.user_id = none))) votes := List.filter_sublist votes
  have hids : ((mergeTargets votes tok).map (fun p => p.1)).Nodup := by
    rw [mergeTargets, List.map_map]
    exact List.Nodup.sublist (List.Sublist.map (fun v => v.id) hfilsub) hIds
  have htopics : ((mergeTargets votes tok).map (fun p => p.2)).Nodup := by
    rw [mergeTargets, List.map_map]
    refine nodup_map_of_countP_le_one _ _ (fun t => ?_)
    have h₁ : (votes.filter (fun v => decide (v.guest_token = some tok) &&
        decide (v.user_id = none))).countP (fun a => decide (a.topic_id = t)) ≤
        countIdentityVotes votes t (.guestTok tok) := by
      rw [List.countP_filter, countIdentityVotes]
      refine List.countP_mono_left (fun v _ hpv => ?_)
      simp only [Bool.and_eq_true, decide_eq_true_eq] at hpv
      simp only [matchesIdentity, Bool.and_eq_true, decide_eq_true_eq]
      exact ⟨hpv.1, hpv.2.1⟩
    exact le_trans h₁ (hGuest t)
  have hrun := mergeRun_spec uid tok (mergePred votes uid) (mergeTargets votes tok)
    votes 0 0 hIds hrows hids htopics (fun p _ => rfl)
  rw [hrun]
  have hcnt₁ : (mergeTargets votes tok).countP
      (fun p => !(mergePred votes uid p.2)) =
      votes.countP (fun v => isGuestRowOf tok v &&
        !(hasUserVote votes v.topic_id uid)) := by
    rw [mergeTargets, List.countP_map, List.countP_filter]
    refine List.countP_congr (fun v _ => ?_)
    simp only [Function.comp_apply, isGuestRowOf, mergePred, Bool.and_eq_true]
    tauto
  have hcnt₂ : (mergeTargets votes tok).countP
      (fun p => mergePred votes uid p.2) =
      votes.countP (fun v => isGuestRowOf tok v &&
        hasUserVote votes v.topic_id uid) := by
    rw [mergeTargets, List.countP_map, List.countP_filter]
    refine List.countP_congr (fun v _ => ?_)
    simp only [Function.comp_apply, isGuestRowOf, mergePred, Bool.and_eq_true]
    tauto
  rw [hcnt₁, hcnt₂]
  simp [mergeIds]

/-- After a merge run's loop effect, the user has exactly one vote on
every topic the guest had voted on. -/
theorem mergeApply_user_count (votes : List VoteRec) (tok uid t : String)
    (hIds : (votes.map (fun v => v.id)).Nodup)
    (hUser : ∀ t, countIdentityVotes votes t (.userId uid) ≤ 1)
    (hGuest : ∀ t, countIdentityVotes votes t (.guestTok tok) ≤ 1)
    (hIdent : ∀ v ∈ votes, identityOk v)
    (hg : ∃ g, g ∈ votes ∧ g.guest_token = some tok ∧ g.topic_id = t) :
    countIdentityVotes
      (mergeApply (mergePred votes uid) uid (mergeIds votes tok) votes)
      t (.userId uid) = 1 := by
  rcases hg with ⟨g, hgmem, hgt, hgtop⟩
  have hstep : countIdentityVotes
      (mergeApply (mergePred votes uid) uid (mergeIds votes tok) votes)
      t (.userId uid) =
      votes.countP (fun v => decide (¬ v.id ∈ mergeIds votes tok) &&
        (decide (v.topic_id = t) && matchesIdentity (.userId uid) v)) +
      votes.countP (fun v => decide (v.id ∈ mergeIds votes tok) &&
        !(mergePred votes uid v.topic_id) &&
        (decide ((reassignVote uid v).topic_id = t) &&
          matchesIdentity (.userId uid) (reassignVote uid v))) := by
    rw [countIdentityVotes]
    exact mergeApply_countP (mergePred votes uid) uid (mergeIds votes tok) votes
      (fun v => decide (v.topic_id = t) && matchesIdentity (.userId uid) v)
  rw [hstep]
  cases hpt : hasUserVote votes t uid with
  | true =>
    have hA : votes.countP (fun v => decide (¬ v.id ∈ mergeIds votes tok) &&
        (decide (v.topic_id = t) && matchesIdentity (.userId uid) v)) =
        countIdentityVotes votes t (.userId uid) := by
      rw [countIdentityVotes]
      refine List.countP_congr (fun v hv => ?_)
      simp only [Bool.and_eq_true, decide_eq_true_eq, matchesIdentity]
      constructor
      · exact fun h => h.2
      · intro h
        refine ⟨fun hidmem => ?_, h⟩
        have hup := (targeted_row_props votes tok hIds v hv hidmem).2
        rw [hup] at h
        exact absurd h.2 (by simp)
    have hApos : 0 < countIdentityVotes votes t (.userId uid) :=
      (hasUserVote_iff_count votes t uid).mp hpt
    have hAle := hUser t
    have hB : votes.countP (fun v => decide (v.id ∈ mergeIds votes tok) &&
        !(mergePred votes uid v.topic_id) &&
        (decide ((reassignVote uid v).topic_id = t) &&
          matchesIdentity (.userId uid) (reassignVote uid v))) = 0 := by
      rw [List.countP_eq_zero]
      intro v hv hcon
      simp only [Bool.and_eq_true, decide_eq_true_eq] at hcon
      have htv : v.topic_id = t := hcon.2.1
      have hpredf := hcon.1.2
      rw [Bool.not_eq_true'] at hpredf
      have hpredf₂ : hasUserVote votes t uid = false := by
        rw [← htv]
        exact hpredf
      rw [hpt] at hpredf₂
      exact absurd hpredf₂ (by simp)
    rw [hA, hB]
    omega
  | false =>
    have hA0 : votes.countP (fun v => decide (¬ v.id ∈ mergeIds votes tok) &&
        (decide (v.topic_id = t) && matchesIdentity (.userId uid) v)) = 0 := by
      rw [List.countP_eq_zero]
      intro v hv hcon
      simp only [Bool.and_eq_true, decide_eq_true_eq, matchesIdentity] at hcon
      have hhas : hasUserVote votes t uid = true := by
        rw [hasUserVote, List.any_eq_true]
        exact ⟨v, hv, by simp [hcon.2.1, hcon.2.2]⟩
      rw [hpt] at hhas
      exact absurd hhas (by simp)
    have hB1 : votes.countP (fun v => decide (v.id ∈ mergeIds votes tok) &&
        !(mergePred votes uid v.topic_id) &&
        (decide ((reassignVote uid v).topic_id = t) &&
          matchesIdentity (.userId uid) (reassignVote uid v))) =
        countIdentityVotes votes t (.guestTok tok) := by
      rw [countIdentityVotes]
      refine List.countP_congr (fun v hv => ?_)
      simp only [Bool.and_eq_true, decide_eq_true_eq, matchesIdentity,
        reassignVote, Bool.not_eq_true']
      constructor
      · intro h
        have hprops := targeted_row_props votes tok hIds v hv h.1.1
        exact ⟨h.2.1, hprops.1⟩
      · intro h
        have hu : v.user_id = none := by
          rcases hIdent v hv with h' | h'
          · rw [h'.2] at h
            exact absurd h.2 (by simp)
          · exact h'.1
        refine ⟨⟨?_, ?_⟩, h.1, trivial⟩
        · exact guest_rows_targeted votes tok hIdent v hv h.2
        · rw [show mergePred votes uid v.topic_id = hasUserVote votes v.topic_id uid
            from rfl, h.1, hpt]
    have hguestpos : 0 < countIdentityVotes votes t (.guestTok tok) := by
      rw [countIdentityVotes, List.countP_pos_iff]
      exact ⟨g, hgmem, by simp [hgtop, hgt, matchesIdentity]⟩
    have hgle := hGuest t
    rw [hA0, hB1]
    omega

/-- The positive branch of one update. -/
theorem applyOne_pos (r : SchoolRec) (u : Nat × Nat) (h : r.id = u.1) :
    applyOne r u = { r with parent_school_id := some u.2 } := by
  unfold applyOne
  rw [if_pos h]

/-- The negative branch of one update. -/
theorem applyOne_neg (r : SchoolRec) (u : Nat × Nat) (h : ¬ r.id = u.1) :
    applyOne r u = r := by
  unfold applyOne
  rw [if_neg h]

/-- One update only touches `parent_school_id`. -/
theorem applyOne_fields (r : SchoolRec) (u : Nat × Nat) :
    (applyOne r u).id = r.id ∧ (applyOne r u).school_name = r.school_name ∧
      (applyOne r u).campus_type = r.campus_type := by
  by_cases h : r.id = u.1
  · rw [applyOne_pos r u h]
    exact ⟨rfl, rfl, rfl⟩
  · rw [applyOne_neg r u h]
    exact ⟨rfl, rfl, rfl⟩

/-- Update statements only touch `parent_school_id`. -/
theorem applyAll_fields (us : List (Nat × Nat)) :
    ∀ s : SchoolRec, (us.foldl applyOne s).id = s.id ∧
      (us.foldl applyOne s).school_name = s.school_name ∧
      (us.foldl applyOne s).campus_type = s.campus_type := by
  induction us with
  | nil => exact fun s => ⟨rfl, rfl, rfl⟩
  | cons u rest ih =>
    intro s
    rw [List.foldl_cons]
    have h := ih (applyOne s u)
    have ha := applyOne_fields s u
    exact ⟨h.1.trans ha.1, h.2.1.trans ha.2.1, h.2.2.trans ha.2.2⟩

/-- Updates targeting other ids leave a row unchanged. -/
theorem applyAll_no_match (us : List (Nat × Nat)) :
    ∀ s : SchoolRec, (∀ y ∈ us, ¬ y.1 = s.id) → us.foldl applyOne s = s := by
  induction us with
  | nil => exact fun s _ => rfl
  | cons y rest ih =>
    intro s hno
    rw [List.foldl_cons,
      applyOne_neg s y (fun h => hno y (List.mem_cons_self y rest) h.symm)]
    exact ih s (fun z hz => hno z (List.mem_cons_of_mem y hz))

/-- When some update targets the row's id, a previously stored parent
value is irrelevant. -/
theorem applyAll_set_parent (us : List (Nat × Nat)) :
    ∀ (s : SchoolRec) (p : Option Nat), (∃ y ∈ us, y.1 = s.id) →
      us.foldl applyOne { s with parent_school_id := p } = us.foldl applyOne s := by
  induction us with
  | nil =>
    rintro s p ⟨y, hy, _⟩
    cases hy
  | cons y rest ih =>
    rintro s p ⟨z, hz, hzid⟩
    rw [List.foldl_cons, List.foldl_cons]
    by_cases hys : y.1 = s.id
    · rw [applyOne_pos { s with parent_school_id := p } y hys.symm,
        applyOne_pos s y hys.symm]
    · rw [applyOne_neg { s with parent_school_id := p } y (fun h => hys h.symm),
        applyOne_neg s y (fun h => hys h.symm)]
      refine ih s p ⟨z, ?_, hzid⟩
      rcases List.mem_cons.mp hz with h | h
      · exact absurd (h ▸ hzid) hys
      · exact h

/-- Applying the same update list twice is the same as applying it
once. -/
theorem applyAll_idem (u : List (Nat × Nat)) :
    ∀ r : SchoolRec, u.foldl applyOne (u.foldl applyOne r) = u.foldl applyOne r := by
  induction u with
  | nil => exact fun r => rfl
  | cons x us ih =>
    intro r
    rw [List.foldl_cons, List.foldl_cons]
    by_cases hrx : r.id = x.1
    · by_cases hmatch : ∃ y ∈ us, y.1 = r.id
      · have hxid : (applyOne r x).id = r.id := (applyOne_fields r x).1
        have hSid : (us.foldl applyOne (applyOne r x)).id = r.id := by
          rw [(applyAll_fields us (applyOne r x)).1, hxid]
        rw [applyOne_pos (us.foldl applyOne (applyOne r x)) x (by rw [hSid]; exact hrx)]
        rw [applyAll_set_parent us (us.foldl applyOne (applyOne r x)) (some x.2)
          (by
            rcases hmatch with ⟨y, hy, hyid⟩
            exact ⟨y, hy, by rw [hyid, hSid]⟩)]
        exact ih (applyOne r x)
      · have hno : ∀ y ∈ us, ¬ y.1 = r.id := by
          intro y hy hyid
          exact hmatch ⟨y, hy, hyid⟩
        have hxid : (applyOne r x).id = r.id := (applyOne_fields r x).1
        have hS : us.foldl applyOne (applyOne r x) = applyOne r x :=
          applyAll_no_match us _ (fun y hy hyid => hno y hy (by rw [← hxid]; exact hyid))
        rw [hS]
        have hxx : applyOne (applyOne r x) x = applyOne r x := by
          rw [applyOne_pos r x hrx, applyOne_pos { r with parent_school_id := some x.2 } x hrx]
        rw [hxx, hS]
    · rw [applyOne_neg r x hrx]
      have hSid : (us.foldl applyOne r).id = r.id := (applyAll_fields us r).1
      rw [applyOne_neg (us.foldl applyOne r) x (by rw [hSid]; exact hrx)]
      exact ih r

/-- Sequentially applying update statements is a per-row map. -/
theorem applyParentUpdates_eq_map (updates : List (Nat × Nat)) :
    ∀ rows : List SchoolRec,
      applyParentUpdates rows updates =
        rows.map (fun r => updates.foldl applyOne r) := by
  induction updates with
  | nil =>
    intro rows
    rw [applyParentUpdates]
    simp
  | cons u rest ih =>
    intro rows
    rw [applyParentUpdates, List.foldl_cons, ← applyParentUpdates, ih, List.map_map]
    rfl

/-- The name-to-parent passes read only ids, names, and the pass
condition. -/
theorem parentsPass_map (g : SchoolRec → SchoolRec) (p : SchoolRec → Bool)
    (hg : ∀ r, (g r).id = r.id ∧ (g r).school_name = r.school_name ∧ p (g r) = p r)
    (rows : List SchoolRec) :
    ∀ acc, parentsPass p acc (rows.map g) = parentsPass p acc rows := by
  induction rows with
  | nil => exact fun acc => rfl
  | cons r rest ih =>
    intro acc
    rw [List.map_cons]
    show List.foldl (parentsStep p) acc (g r :: rest.map g) = parentsPass p acc (r :: rest)
    rw [List.foldl_cons]
    have hstep : parentsStep p acc (g r) = parentsStep p acc r := by
      unfold parentsStep
      rw [(hg r).1, (hg r).2.1, (hg r).2.2]
    rw [hstep]
    show parentsPass p (parentsStep p acc r) (rest.map g) = parentsPass p acc (r :: rest)
    rw [ih]
    rfl

/-- Pointwise-equal selectors produce the same filterMap. -/
theorem filterMap_congr_fn {α β : Type} (f h : α → Option β) (l : List α)
    (hfh : ∀ a ∈ l, f a = h a) : l.filterMap f = l.filterMap h := by
  induction l with
  | nil => rfl
  | cons a rest ih =>
    rw [List.filterMap_cons, List.filterMap_cons, hfh a (List.mem_cons_self a rest),
      ih (fun x hx => hfh x (List.mem_cons_of_mem a hx))]

/-- The computed updates depend only on ids, names and campus tags. -/
theorem computeParentUpdates_map_fields (g : SchoolRec → SchoolRec)
    (hg : ∀ r, (g r).id = r.id ∧ (g r).school_name = r.school_name ∧
      (g r).campus_type = r.campus_type)
    (rows : List SchoolRec) :
    computeParentUpdates (rows.map g) = computeParentUpdates rows := by
  have hpb : parentsByName (rows.map g) = parentsByName rows := by
    rw [parentsByName, parentsByName]
    rw [parentsPass_map g (fun row => hasMainCampusTag row.campus_type)
      (fun r => ⟨(hg r).1, (hg r).2.1, by
        show hasMainCampusTag (g r).campus_type = hasMainCampusTag r.campus_type
        rw [(hg r).2.2]⟩) rows]
    rw [parentsPass_map g (fun _ => true)
      (fun r => ⟨(hg r).1, (hg r).2.1, rfl⟩) rows]
  rw [computeParentUpdates, computeParentUpdates, hpb, List.filterMap_map]
  refine filterMap_congr_fn _ _ rows (fun r _ => ?_)
  simp only [Function.comp_apply]
  rw [(hg r).2.2, (hg r).2.1, (hg r).1]

/-! ### Claim theorems -/

/-- C1: for every topic and fixed identity (a non-null user id or a
non-null guest token) not on the unlimited-vote allow-list, a fresh
submission stores exactly one row for `(topic, identity)`, and an
immediately following submission for the same topic and identity is
answered with the `DuplicateVote` conflict (HTTP 409) and stores nothing,
leaving exactly one row. -/
theorem submitVote_once (options : List VoteOptionRec) (votes : List VoteRec)
    (user : Option AuthUser) (req req₂ : SubmitReq)
    (storedProfileOk storedProfileOk₂ : Bool) (newId newId₂ : Nat)
    (adminToken adminToken₂ : String) (ident : VoterIdentity)
    (hident : requestIdentity user req = some ident)
    (hident₂ : requestIdentity user req₂ = some ident)
    (htopic : req₂.topicId = req.topicId)
    (hadmin : isUnlimitedAdminOf user = false)
    (hopt : (options.find? (fun o =>
      decide (o.topic_id = req.topicId ∧ o.option_key = req.optionKey))).isSome = true)
    (hopt₂ : (options.find? (fun o =>
      decide (o.topic_id = req₂.topicId ∧ o.option_key = req₂.optionKey))).isSome = true)
    (hprof : req.profileGiven = true)
    (hfresh : countIdentityVotes votes req.topicId ident = 0) :
    submitVote options votes user req storedProfileOk newId adminToken =
      (.created newId, votes ++ [insertedRow ident newId req.topicId req.optionKey]) ∧
      countIdentityVotes (votes ++ [insertedRow ident newId req.topicId req.optionKey])
        req.topicId ident = 1 ∧
      submitVote options (votes ++ [insertedRow ident newId req.topicId req.optionKey])
          user req₂ storedProfileOk₂ newId₂ adminToken₂ =
        (.duplicateVote,
          votes ++ [insertedRow ident newId req.topicId req.optionKey]) := by
  have hrow : (fun v => decide (v.topic_id = req.topicId) && matchesIdentity ident v)
      (insertedRow ident newId req.topicId req.optionKey) = true := by
    cases ident <;> simp [insertedRow, matchesIdentity]
  have hcount : countIdentityVotes
      (votes ++ [insertedRow ident newId req.topicId req.optionKey])
      req.topicId ident = 1 := by
    rw [countIdentityVotes] at hfresh ⊢
    rw [List.countP_append, hfresh, List.countP_singleton, if_pos hrow]
  refine ⟨submitVote_fresh options votes user req storedProfileOk newId adminToken ident
    hident hadmin hopt hprof hfresh, hcount, ?_⟩
  apply submitVote_dup options _ user req₂ storedProfileOk₂ newId₂ adminToken₂ ident
    hident₂ hadmin hopt₂
  rw [htopic, hcount]
  omega

/-- C1 witness: the double-submission theorem at a concrete ledger. -/
theorem submitVote_once_witness :
    submitVote demoOptions [] (some ⟨"u1", some "u1@example.com"⟩)
        ⟨"t1", "a", none, true⟩ false 10 "r1" =
      (.created 10, [⟨10, "t1", "a", some "u1", none, false⟩]) ∧
      submitVote demoOptions [⟨10, "t1", "a", some "u1", none, false⟩]
          (some ⟨"u1", some "u1@example.com"⟩) ⟨"t1", "b", none, true⟩ false 11 "r2" =
        (.duplicateVote, [⟨10, "t1", "a", some "u1", none, false⟩]) := by
  have h := submitVote_once demoOptions [] (some ⟨"u1", some "u1@example.com"⟩)
    ⟨"t1", "a", none, true⟩ ⟨"t1", "b", none, true⟩ false false 10 11 "r1" "r2"
    (.userId "u1") (by decide) (by decide) (by decide) (by decide) (by decide)
    (by decide) (by decide) (by decide)
  exact ⟨h.1, h.2.2⟩

/-- C3: every write path preserves mutual exclusivity: a submission
(authenticated, guest, or the allow-list bypass with its synthetic guest
token) and the guest-to-user merge leave every stored row with exactly
one of `user_id` and `guest_token` non-null. -/
theorem votes_identity_exclusive :
    (∀ options votes user req storedProfileOk newId adminToken,
        (∀ v ∈ votes, identityOk v) →
        ∀ v ∈ (submitVote options votes user req storedProfileOk newId adminToken).2,
          identityOk v) ∧
      (∀ votes (tok uid : String) s₁ (m k : Nat), (∀ v ∈ votes, identityOk v) →
        merge_guest_votes_to_user votes tok uid = some (s₁, m, k) →
        ∀ v ∈ s₁, identityOk v) := by
  constructor
  · intro options votes user req storedProfileOk newId adminToken hall v hv
    rcases submitVote_state options votes user req storedProfileOk newId adminToken with
      h | ⟨w, hw, hwid⟩
    · rw [h] at hv
      exact hall v hv
    · rw [hw] at hv
      rcases List.mem_append.mp hv with h₁ | h₁
      · exact hall v h₁
      · rw [List.mem_singleton.mp h₁]
        exact hwid
  · intro votes tok uid s₁ m k hall hmerge v hv
    rw [merge_guest_votes_to_user] at hmerge
    split at hmerge
    · exact absurd hmerge (by simp)
    · injection hmerge with h₁
      have h₂ := congrArg Prod.fst h₁
      simp only at h₂
      rw [← h₂] at hv
      exact mergeFold_identityOk uid (mergeTargets votes tok) votes 0 0 hall v hv

/-- C3 witness: a row stored by a submission and a row rewritten by the
merge both satisfy the identity check. -/
theorem votes_identity_exclusive_witness :
    identityOk (⟨10, "t1", "a", some "u1", none, false⟩ : VoteRec) ∧
      identityOk (⟨2, "t2", "b", some "u", none, true⟩ : VoteRec) := by
  constructor
  · exact votes_identity_exclusive.1 demoOptions [] (some ⟨"u1", some "u1@example.com"⟩)
      ⟨"t1", "a", none, true⟩ false 10 "r1" (by simp)
      ⟨10, "t1", "a", some "u1", none, false⟩ (by decide)
  · exact votes_identity_exclusive.2 demoMergeVotes "g" "u"
      [⟨2, "t2", "b", some "u", none, true⟩, ⟨3, "t1", "a", some "u", none, false⟩] 1 1
      (by decide) (by decide) ⟨2, "t2", "b", some "u", none, true⟩ (by decide)

/-- C4: `merge_guest_votes_to_user(guestToken, userId)` deletes each
guest vote whose topic the user already has a vote on, counting it in
`skipped`, and reassigns every other guest vote to the user (guest token
cleared, user id set, `merged_from_guest` set true), counting it in
`moved`; afterwards the user has exactly one vote on each topic the guest
had voted on and no row under that guest token remains.  The hypotheses
are the `votes` table's constraints: unique row ids, the two partial
unique indexes (stated per topic for the two identities involved) and
the identity check. -/
theorem merge_guest_votes_correct (votes : List VoteRec) (tok uid : String)
    (htok : ¬ strTrim tok = "")
    (hIds : (votes.map (fun v => v.id)).Nodup)
    (hUser : ∀ t, countIdentityVotes votes t (.userId uid) ≤ 1)
    (hGuest : ∀ t, countIdentityVotes votes t (.guestTok tok) ≤ 1)
    (hIdent : ∀ v ∈ votes, identityOk v) :
    ∃ s₁,
      merge_guest_votes_to_user votes tok uid =
        some (s₁,
          votes.countP (fun v => isGuestRowOf tok v &&
            !(hasUserVote votes v.topic_id uid)),
          votes.countP (fun v => isGuestRowOf tok v &&
            hasUserVote votes v.topic_id uid)) ∧
      (∀ v ∈ votes, isGuestRowOf tok v = true →
        hasUserVote votes v.topic_id uid = false → reassignVote uid v ∈ s₁) ∧
      (∀ v ∈ votes, isGuestRowOf tok v = true →
        hasUserVote votes v.topic_id uid = true → ∀ w ∈ s₁, ¬ w.id = v.id) ∧
      (∀ t, (∃ g, g ∈ votes ∧ g.guest_token = some tok ∧ g.topic_id = t) →
        countIdentityVotes s₁ t (.userId uid) = 1) ∧
      (∀ v ∈ s₁, ¬ v.guest_token = some tok) := by
  refine ⟨mergeApply (mergePred votes uid) uid (mergeIds votes tok) votes,
    mergeRun_characterized votes tok uid htok hIds hGuest, ?_, ?_, ?_, ?_⟩
  · intro v hv hrow hnot
    have hprops : v.guest_token = some tok ∧ v.user_id = none := by
      simp only [isGuestRowOf, Bool.and_eq_true, decide_eq_true_eq] at hrow
      exact hrow
    exact mergeApply_mem_reassign _ _ _ _ _ hv
      (guest_rows_targeted votes tok hIdent v hv hprops.1) hnot
  · intro v hv hrow hyes
    have hprops : v.guest_token = some tok ∧ v.user_id = none := by
      simp only [isGuestRowOf, Bool.and_eq_true, decide_eq_true_eq] at hrow
      exact hrow
    refine mergeApply_id_gone _ _ _ _ v.id
      (guest_rows_targeted votes tok hIdent v hv hprops.1) ?_
    intro w hw hwid
    have hwv : w = v := List.inj_on_of_nodup_map hIds hw hv hwid
    rw [show mergePred votes uid w.topic_id = hasUserVote votes w.topic_id uid
      from rfl, hwv, hyes]
  · intro t hg
    exact mergeApply_user_count votes tok uid t hIds hUser hGuest hIdent hg
  · exact mergeApply_guest_free _ _ _ _ _
      (fun v hv hgt => guest_rows_targeted votes tok hIdent v hv hgt)

/-- C4 witness: the merge-correctness theorem at a concrete ledger (a
guest vote colliding with a user vote on `t1` and a guest vote on a fresh
topic `t2`). -/
theorem merge_guest_votes_correct_witness :
    countIdentityVotes [⟨2, "t2", "b", some "u", none, true⟩,
        ⟨3, "t1", "a", some "u", none, false⟩] "t2" (.userId "u") = 1 ∧
      countIdentityVotes [⟨2, "t2", "b", some "u", none, true⟩,
        ⟨3, "t1", "a", some "u", none, false⟩] "t1" (.userId "u") = 1 := by
  rcases merge_guest_votes_correct demoMergeVotes "g" "u" (by decide) (by decide)
      (countIdentityVotes_le_one_of_nodup demoMergeVotes (.userId "u") (by decide))
      (countIdentityVotes_le_one_of_nodup demoMergeVotes (.guestTok "g") (by decide))
      (by decide) with ⟨s₁, hrun, hre, hgone, hone, hfree⟩
  have hconc : merge_guest_votes_to_user demoMergeVotes "g" "u" =
      some ([⟨2, "t2", "b", some "u", none, true⟩,
        ⟨3, "t1", "a", some "u", none, false⟩], 1, 1) := by decide
  rw [hconc] at hrun
  injection hrun with hpair
  have hs : ([⟨2, "t2", "b", some "u", none, true⟩,
      ⟨3, "t1", "a", some "u", none, false⟩] : List VoteRec) = s₁ :=
    congrArg Prod.fst hpair
  rw [hs]
  exact ⟨hone "t2" ⟨⟨2, "t2", "b", none, some "g", false⟩, by decide, by decide,
      by decide⟩,
    hone "t1" ⟨⟨1, "t1", "a", none, some "g", false⟩, by decide, by decide, by decide⟩⟩

/-- C5: a second run of `merge_guest_votes_to_user` with the same
arguments after a successful run changes no vote rows and returns
`moved = 0, skipped = 0`. -/
theorem merge_guest_votes_idempotent (votes : List VoteRec) (tok uid : String)
    (htok : ¬ strTrim tok = "")
    (hIds : (votes.map (fun v => v.id)).Nodup)
    (hGuest : ∀ t, countIdentityVotes votes t (.guestTok tok) ≤ 1)
    (hIdent : ∀ v ∈ votes, identityOk v)
    (s₁ : List VoteRec) (m k : Nat)
    (hrun : merge_guest_votes_to_user votes tok uid = some (s₁, m, k)) :
    merge_guest_votes_to_user s₁ tok uid = some (s₁, 0, 0) := by
  have hchar := mergeRun_characterized votes tok uid htok hIds hGuest
  rw [hchar] at hrun
  injection hrun with hpair
  have hs : mergeApply (mergePred votes uid) uid (mergeIds votes tok) votes = s₁ :=
    congrArg Prod.fst hpair
  have hfree : ∀ v ∈ s₁, ¬ v.guest_token = some tok := by
    rw [← hs]
    exact mergeApply_guest_free _ _ _ _ _
      (fun v hv hgt => guest_rows_targeted votes tok hIdent v hv hgt)
  rw [merge_guest_votes_to_user, if_neg htok]
  have htargets : mergeTargets s₁ tok = [] := by
    rw [mergeTargets]
    rw [List.filter_eq_nil_iff.mpr ?_]
    · rfl
    intro a ha
    simp [hfree a ha]
  rw [htargets]
  rfl

/-- C5 witness: re-running the merge on the merged ledger is a no-op with
zero counters. -/
theorem merge_guest_votes_idempotent_witness :
    merge_guest_votes_to_user [⟨2, "t2", "b", some "u", none, true⟩,
        ⟨3, "t1", "a", some "u", none, false⟩] "g" "u" =
      some ([⟨2, "t2", "b", some "u", none, true⟩,
        ⟨3, "t1", "a", some "u", none, false⟩], 0, 0) :=
  merge_guest_votes_idempotent demoMergeVotes "g" "u" (by decide) (by decide)
    (countIdentityVotes_le_one_of_nodup demoMergeVotes (.guestTok "g") (by decide))
    (by decide) [⟨2, "t2", "b", some "u", none, true⟩,
      ⟨3, "t1", "a", some "u", none, false⟩] 1 1 (by decide)

/-- C9 counterexample: on a table whose parent links are already correct
(the pass changes nothing), re-running it still issues one update write
per linked branch row — not zero. -/
theorem reconcile_zero_writes_counterexample :
    reconcileParents demoSchools = demoSchools ∧
      parentWriteCount demoSchools = 1 ∧
      parentWriteCount (reconcileParents demoSchools) = 1 := by
  decide

/-- C9 amended: the reconciliation pass is idempotent in its effect —
re-running it computes exactly the same updates (it never reads the
stored `parent_school_id`) and applying them again changes no row — but
it does not perform zero writes on an already-correct table: each run
re-issues one update per branch row with a designated parent. -/
theorem reconcile_idempotent_amended :
    (∀ rows : List SchoolRec,
      computeParentUpdates (reconcileParents rows) = computeParentUpdates rows) ∧
      (∀ rows : List SchoolRec,
        reconcileParents (reconcileParents rows) = reconcileParents rows) := by
  have hcompute : ∀ rows : List SchoolRec,
      computeParentUpdates (reconcileParents rows) = computeParentUpdates rows := by
    intro rows
    rw [reconcileParents, applyParentUpdates_eq_map]
    exact computeParentUpdates_map_fields _
      (fun r => applyAll_fields (computeParentUpdates rows) r) rows
  refine ⟨hcompute, fun rows => ?_⟩
  have h₁ : reconcileParents (reconcileParents rows) =
      applyParentUpdates (reconcileParents rows) (computeParentUpdates rows) := by
    rw [reconcileParents, hcompute rows]
  rw [h₁, reconcileParents, applyParentUpdates_eq_map, applyParentUpdates_eq_map,
    List.map_map]
  refine List.map_congr_left (fun r _ => ?_)
  simp only [Function.comp_apply]
  exact applyAll_idem (computeParentUpdates rows) r

/-- C8: in every per-region result of `get_region_vote_stats` (fast path)
and of `buildStatsFromVoteRows` (slow path), `winner` is `A` exactly when
`countA > countB`, `B` exactly when `countB > countA`, and `TIE` exactly
when they are equal. -/
theorem region_stats_winner_rule (rows : List StatsVoteRow) (level : RegionLevel)
    (optA optB : String) (code : String) (st : RegionStat)
    (h : get_region_vote_stats rows level optA optB code = some st ∨
      buildStatsFromVoteRows rows level optA optB code = some st) :
    (st.winner = Winner.A ↔ st.countB < st.countA) ∧
      (st.winner = Winner.B ↔ st.countA < st.countB) ∧
      (st.winner = Winner.TIE ↔ st.countA = st.countB) := by
  have hshape : st.winner = winnerOf st.countA st.countB := by
    rcases h with h | h
    · simp only [get_region_vote_stats] at h
      split at h
      · exact absurd h (by simp)
      · injection h with h₁
        rw [← h₁]
    · rw [buildStats_eq_statsSpec] at h
      simp only [statsSpec] at h
      split at h
      · exact absurd h (by simp)
      · injection h with h₁
        rw [← h₁]
  rw [hshape]
  exact winnerOf_iff st.countA st.countB

/-- C8 witness: the winner rule applied to a concrete fast-path result. -/
theorem region_stats_winner_rule_witness :
    get_region_vote_stats demoAggRows RegionLevel.sido "a" "b" "11" =
      some ⟨2, 1, 1, Winner.TIE⟩ ∧
      ((⟨2, 1, 1, Winner.TIE⟩ : RegionStat).winner = Winner.TIE ↔ (1 : Nat) = 1) := by
  refine ⟨by decide, ?_⟩
  exact (region_stats_winner_rule demoAggRows RegionLevel.sido "a" "b" "11"
    ⟨2, 1, 1, Winner.TIE⟩ (Or.inl (by decide))).2.2

/-- C2 counterexample: a vote row with no denormalized codes of its own
but a linked school carrying usable codes is counted by the slow path and
dropped by the fast path, so the two paths disagree at region `11`. -/
theorem aggregation_paths_counterexample :
    get_region_vote_stats [rowSchoolOnly] RegionLevel.sido "a" "b" "11" ≠
        buildStatsFromVoteRows [rowSchoolOnly] RegionLevel.sido "a" "b" "11" ∧
      get_region_vote_stats [rowSchoolOnly] RegionLevel.sido "a" "b" "11" = none ∧
      buildStatsFromVoteRows [rowSchoolOnly] RegionLevel.sido "a" "b" "11" =
        some ⟨1, 1, 0, Winner.A⟩ := by
  decide

/-- C2 amended: the fast path reads only the vote's own denormalized code
(dropping exactly the null/empty ones, without trimming), while the slow
path falls back to the linked school's code when the own code is null and
trims.  For vote sets on which the two per-row keys coincide — in
particular when every row's own code is already trimmed and, when null,
the linked school's code is unusable too — the two paths produce
identical per-region-code results. -/
theorem aggregation_paths_agree (rows : List StatsVoteRow) (level : RegionLevel)
    (optA optB : String)
    (hAB : optA ≠ optB)
    (hFK : ∀ r ∈ rows, r.option_key = optA ∨ r.option_key = optB)
    (hkeys : ∀ r ∈ rows, fastRegionCode level r = slowRegionCode level r) :
    ∀ code, get_region_vote_stats rows level optA optB code =
      buildStatsFromVoteRows rows level optA optB code := by
  intro code
  rw [get_region_eq_statsSpec rows level optA optB code hAB hFK,
    buildStats_eq_statsSpec]
  exact statsSpec_congr _ _ optA optB rows code hkeys

/-- C2 witness: the agreement theorem applied to a concrete vote set. -/
theorem aggregation_paths_agree_witness :
    get_region_vote_stats demoAggRows RegionLevel.sido "a" "b" "11" =
      buildStatsFromVoteRows demoAggRows RegionLevel.sido "a" "b" "11" := by
  have h := aggregation_paths_agree demoAggRows RegionLevel.sido "a" "b"
    (by decide) (by decide) (by decide)
  exact h "11"

/-- C7 counterexample: a row whose own codes are the empty string but
whose linked school carries usable codes is excluded by both paths — the
slow path does not fall back to the school on an empty (non-null) own
code, so the row is not counted under the school's code `11`. -/
theorem region_exclusion_counterexample :
    linkedSchoolCode RegionLevel.sido rowEmptyDirect = some "11" ∧
      slowRegionCode RegionLevel.sido rowEmptyDirect = none ∧
      fastRegionCode RegionLevel.sido rowEmptyDirect = none ∧
      buildStatsFromVoteRows [rowEmptyDirect] RegionLevel.sido "a" "b" "11" = none ∧
      get_region_vote_stats [rowEmptyDirect] RegionLevel.sido "a" "b" "11" = none := by
  decide

/-- C7 amended: the slow path excludes a row exactly when its own code is
null and the linked school's code is null or trims to empty, or its own
code is present but empty/whitespace-only (the school fallback applies
only to a null own code); the fast path excludes a row exactly when its
own code is null or the empty string, never consulting the school.
Excluded rows leave both aggregates unchanged. -/
theorem region_exclusion_amended (level : RegionLevel) (row : StatsVoteRow) :
    (slowRegionCode level row = none ↔
      (directCode level row = none ∧ normalizeCode (linkedSchoolCode level row) = none) ∨
        (∃ d, directCode level row = some d ∧ strTrim d = "")) ∧
      (fastRegionCode level row = none ↔
        (directCode level row = none ∨ directCode level row = some "")) ∧
      (∀ rows optA optB code, slowRegionCode level row = none →
        buildStatsFromVoteRows (rows ++ [row]) level optA optB code =
          buildStatsFromVoteRows rows level optA optB code) ∧
      (∀ rows optA optB code, fastRegionCode level row = none →
        get_region_vote_stats (rows ++ [row]) level optA optB code =
          get_region_vote_stats rows level optA optB code) := by
  refine ⟨?_, ?_, ?_, ?_⟩
  · unfold slowRegionCode
    cases hd : directCode level row with
    | none =>
      simp [Option.orElse]
    | some d =>
      simp only [Option.orElse, normalizeCode]
      by_cases he : d = ""
      · subst he
        refine ⟨fun _ => Or.inr ⟨"", rfl, by decide⟩, fun _ => ?_⟩
        simp
      · by_cases ht : strTrim d = ""
        · simp [he, ht]
        · simp [he, ht]
  · unfold fastRegionCode nullifEmpty
    cases hd : directCode level row with
    | none => simp
    | some d =>
      by_cases he : d = ""
      · subst he
        simp
      · simp [he]
  · intro rows optA optB code h
    rw [buildStatsFromVoteRows, List.foldl_append, List.foldl_cons, List.foldl_nil,
      ← buildStatsFromVoteRows]
    simp only [slowStep, h]
  · intro rows optA optB code h
    simp only [get_region_vote_stats, List.filterMap_append, List.filterMap_cons,
      List.filterMap_nil, List.countP_append]
    cases hp : positionOf optA optB row with
    | none => simp
    | some p =>
      have h1 : List.countP (fun x => decide (x.1 = some code))
          [(fastRegionCode level row, p)] = 0 := by simp [h]
      have h2 : List.countP (fun x => decide (x.1 = some code) && decide (x.2 = 1))
          [(fastRegionCode level row, p)] = 0 := by simp [h]
      have h3 : List.countP (fun x => decide (x.1 = some code) && decide (x.2 = 2))
          [(fastRegionCode level row, p)] = 0 := by simp [h]
      simp only [Option.map_some', h1, h2, h3, Nat.add_zero]

/-- C7 witness: an excluded row (empty own codes, usable school codes)
leaves both paths' aggregates unchanged on a concrete vote set. -/
theorem region_exclusion_amended_witness :
    buildStatsFromVoteRows (demoAggRows ++ [rowEmptyDirect]) RegionLevel.sido "a" "b" "11" =
        buildStatsFromVoteRows demoAggRows RegionLevel.sido "a" "b" "11" ∧
      get_region_vote_stats (demoAggRows ++ [rowEmptyDirect]) RegionLevel.sido "a" "b" "11" =
        get_region_vote_stats demoAggRows RegionLevel.sido "a" "b" "11" :=
  ⟨(region_exclusion_amended RegionLevel.sido rowEmptyDirect).2.2.1 demoAggRows "a" "b" "11"
      (by decide),
    (region_exclusion_amended RegionLevel.sido rowEmptyDirect).2.2.2 demoAggRows "a" "b" "11"
      (by decide)⟩

/-- C10: whenever `resolveSigunguCode` returns a non-null `sigunguCode`,
the returned `(sigunguCode, sigunguName)` pair is the `(code, name)` of an
entry of the loaded gazetteer, and if a non-empty `sidoCode` argument was
supplied the returned code starts with that `sidoCode`. -/
theorem resolveSigunguCode_mem_gazetteer
    (raw : List Muni) (args : SigunguQuery) (c : String) (n : Option String)
    (h : resolveSigunguCode raw args = (some c, n)) :
    (∃ e, e ∈ readMunicipalities raw ∧ e.code = c ∧ n = some e.name) ∧
      (∀ sc, args.sidoCode = some sc → sc ≠ "" → strStartsWith c sc = true) := by
  simp only [resolveSigunguCode] at h
  split at h
  · exact absurd h (by simp)
  · split at h
    next hit hm =>
      injection h with h₁ h₂
      injection h₁ with h₁
      have hp := matchCandidates_mem _ _ hit hm
      have hf := List.mem_filter.mp hp
      refine ⟨⟨hit, hf.1, h₁, h₂.symm⟩, ?_⟩
      intro sc hsc hne
      have hpred := hf.2
      rw [hsc] at hpred
      simp only [Bool.or_eq_true, beq_iff_eq] at hpred
      rcases hpred with h0 | h0
      · exact absurd h0 hne
      · exact h₁ ▸ h0
    next hm => exact absurd h (by simp)

/-- C10 witness: the soundness theorem applied at a concrete gazetteer and
query. -/
theorem resolveSigunguCode_mem_gazetteer_witness :
    resolveSigunguCode gazNamgu queryMichuholAddr = (some "23030", some "남구") ∧
      strStartsWith "23030" "23" = true := by
  refine ⟨by decide, ?_⟩
  exact (resolveSigunguCode_mem_gazetteer gazNamgu queryMichuholAddr "23030" (some "남구")
    (by decide)).2 "23" (by decide) (by decide)

/-- C6 counterexample: with a gazetteer whose entry `23030` is named
미추홀구 (exactly the claim's hypothesis), resolving with the province
code of 인천, no explicit municipality name, and the address
`인천 남구 용현동` returns a null code — the alias table maps 미추홀구
to 남구, not the other way round, so the address candidate 남구 never
reaches 미추홀구. -/
theorem resolveSigunguCode_namgu_counterexample :
    Muni.mk "23030" "미추홀구" ∈ gazMichuhol ∧
      resolveSigunguCode gazMichuhol queryNamguAddr = (none, some "남구") := by
  decide

/-- C6 amended: the alias table maps the post-rename name 미추홀구 to the
pre-rename name 남구, matching a gazetteer that still carries the old
name.  With the gazetteer entry `(23030, 남구)`, an address of the form
`인천 미추홀구 ...` (no explicit municipality name, province code of
인천) resolves to code `23030` via the alias table, and an address of the
form `인천 남구 ...` resolves to `23030` by direct exact match. -/
theorem resolveSigunguCode_namgu_amended :
    resolveSigunguCode gazNamgu queryMichuholAddr = (some "23030", some "남구") ∧
      resolveSigunguCode gazNamgu queryNamguAddr = (some "23030", some "남구") := by
  decide

end VoteWar
